import Mathlib

/-!
# OS-Simple-Shell: pipeline launcher, job table, replay substitution, echo

A shallow embedding of `src/shell.c` (`launch_process`, `get_job_id`,
`launch_job`, `add_history`), `src/command.c` (`process_replay`,
`parse_segment`, `parse_line`) and `src/builtin.c` (the built-in table,
`cmd_echo`, `cmd_mypid`, `cmd_replay`).

C strings are lists of characters, descriptors are natural numbers, `int`
and `pid_t` values are integers.  The length of a C string, the number `strlen`
returns and the room `strcpy` needs less one, is the number of bytes of its
UTF-8 encoding (`String.utf8ByteSize`), not the number of its characters.

The parent process is followed through `fork`; everything the operating
system decides (whether `pipe`, `open` and `fork` succeed, what
`/proc/<pid>/stat` contains) is read from an explicit environment `Env`.
System calls act on an explicit table of open descriptors and leave an event
in a trace: `open` and `pipe` hand out the lowest free descriptor numbers,
`close` of a descriptor that is not open is recorded as a failed close.

A call of a built-in handler is one event, with the descriptors it was given
and its outcome; what the handler writes, and the `/proc` handles that
`cmd_mypid` opens and closes again inside, are not traced.  A result `none`
stands for a process that has left the shell code: the `exit` built-in, or the
child side of `fork`.
-/

namespace SimpleShell

/-! ## Constants of `include/shell.h` -/

def MAX_JOBS : Nat := 20
def MAX_HISTORY : Nat := 16
def LINE_LEN : Nat := 1024
def STDIN_FILENO : Nat := 0
def STDOUT_FILENO : Nat := 1

/-- Execution modes (`FG_EXEC = 1`, `BG_EXEC = 0`, `PIPE_EXEC = 2`). -/
inductive ExecMode
  | FG_EXEC
  | BG_EXEC
  | PIPE_EXEC
  deriving DecidableEq, Repr

/-- Command identifiers of `include/command.h`. -/
inductive CmdType
  | CMD_EXTERNAL
  | CMD_EXIT
  | CMD_CD
  | CMD_HELP
  | CMD_ECHO
  | CMD_RECORD
  | CMD_REPLAY
  | CMD_MYPID
  deriving DecidableEq, Repr

open ExecMode CmdType

/-- One pipeline stage (`struct process`); `argc` is `argv.length`, the
`next` link is the tail of the list that holds the stage. -/
structure process where
  argv : List String
  infile : Option String
  outfile : Option String
  pid : Int
  type : CmdType
  deriving DecidableEq, Repr

/-- A pipeline (`struct job`); `first` is the chain of stages. -/
structure job where
  id : Int
  pgid : Int
  mode : ExecMode
  full_cmd : String
  first : List process
  deriving DecidableEq, Repr

/-- The job table of `struct shell_info`: slot `i` holds the address of a
job descriptor, or `none` for `NULL`. -/
structure shell_info where
  jobs : List (Option Nat)
  deriving DecidableEq, Repr

/-- The history buffer of `my_shell.c`: the rows of `history` (rows past the
end of the list are the zero-initialised, empty rows) and `history_count`. -/
structure History where
  history : List String
  history_count : Int
  deriving DecidableEq, Repr

/-- What the parent process does that is visible from outside. -/
inductive Ev
  | opened (fd : Nat)
  | closed (fd : Nat)
  | badClose (fd : Nat)
  | perror (what : String)
  | fork (stage : Nat) (ret : Int) (in_fd out_fd : Nat)
  | builtin (stage : Nat) (type : CmdType) (in_fd out_fd : Nat) (ret : Int)
  | waitpid (pid : Int)
  | stdout (text : String)
  deriving DecidableEq, Repr

/-- The parent process as the kernel sees it: its open descriptors and the
trace of what it has done so far. -/
structure Sys where
  fds : List Nat
  trace : List Ev
  deriving DecidableEq, Repr

/-- Answers of the operating system, per stage index of the job being
launched: does `pipe` succeed, do the two redirect `open`s succeed, what does
`fork` return; and the first line of `/proc/<pid>/stat` (`none` when the file
cannot be opened). -/
structure Env where
  pipe_ok : Nat → Bool
  open_in_ok : Nat → Bool
  open_out_ok : Nat → Bool
  fork_ret : Nat → Int
  proc_stat : Int → Option String

/-! ## C library: `strtok_r`, `atoi` -/

/-- The reentrant tokenizer: from the saved position `s`, skip leading
delimiters; no token if the string ends there; otherwise the token runs to
the next delimiter, which is overwritten by the terminator, and the saved
position moves just past it.  Returns the token and the new saved position. -/
def strtok_r (s delim : List Char) : Option (List Char) × List Char :=
  let s1 := s.dropWhile (fun c => decide (c ∈ delim))
  if s1 = [] then (none, [])
  else
    let tok := s1.takeWhile (fun c => decide (c ∉ delim))
    match s1.dropWhile (fun c => decide (c ∉ delim)) with
    | [] => (some tok, [])
    | _ :: save => (some tok, save)

/-- White space of the C locale: space, \t, \n, \v, \f, \r. -/
def isspace (c : Char) : Bool :=
  c.toNat = 32 || (9 ≤ c.toNat && c.toNat ≤ 13)

/-- Decimal digit test. -/
def isdigit (c : Char) : Bool :=
  48 ≤ c.toNat && c.toNat ≤ 57

/-- Value of the leading run of decimal digits, continuing from `acc`. -/
def digits_value : List Char → Nat → Nat
  | [], acc => acc
  | c :: cs, acc => if isdigit c then digits_value cs (10 * acc + (c.toNat - 48)) else acc

/-- The base-10 `strtol`: white space, an optional sign, digits; the value is
clamped to the range of `long`. -/
def strtol10 (s : List Char) : Int :=
  let s1 := s.dropWhile isspace
  let v : Int :=
    match s1 with
    | [] => 0
    | c :: cs =>
      if c.toNat = 45 then -((digits_value cs 0 : Nat) : Int)
      else if c.toNat = 43 then ((digits_value cs 0 : Nat) : Int)
      else ((digits_value s1 0 : Nat) : Int)
  if v < -(2 ^ 63 : Int) then -(2 ^ 63 : Int)
  else if v > (2 ^ 63 : Int) - 1 then (2 ^ 63 : Int) - 1
  else v

/-- The library `atoi` is `(int) strtol(s, NULL, 10)`: the `long` is cut to 32
bits, two's complement. -/
def atoi (s : List Char) : Int :=
  (strtol10 s + 2 ^ 31) % 2 ^ 32 - 2 ^ 31

/-! ## `src/builtin.c` -/

/-- The printing loop of `cmd_echo`, `for (i = start; i < argc; i++)` with `n`
rounds to go: the argument, then a blank if `i < argc - 1`. -/
def echo_loop (argv : List String) : Nat → Nat → String
  | _, 0 => ""
  | i, n + 1 =>
    argv.getD i "" ++ (if i + 1 < argv.length then " " else "") ++ echo_loop argv (i + 1) n

/-- Built-in `echo [-n]`: text written to the resolved output, and outcome. -/
def cmd_echo (proc : process) : String × Int :=
  if proc.argv.length > 1 ∧ proc.argv.getD 1 "" = "-n" then
    (echo_loop proc.argv 2 (proc.argv.length - 2), 1)
  else
    (echo_loop proc.argv 1 (proc.argv.length - 1) ++ "\n", 1)

/-- The field loop of `get_parent_pid`: the fourth blank-separated token of
the line, read by `atoi`; `ppid` stays 0 when the line has fewer tokens. -/
def stat_field : Nat → List Char → Int
  | 0, _ => 0
  | n + 1, s =>
    match strtok_r s [Char.ofNat 32] with
    | (none, _) => 0
    | (some tok, save) => if n = 0 then atoi tok else stat_field n save

/-- Parent pid from `/proc/<pid>/stat`; -1 when the file cannot be opened.
The `FILE` handle is opened and closed inside. -/
def get_parent_pid (env : Env) (pid : Int) : Int :=
  match env.proc_stat pid with
  | none => -1
  | some line => stat_field 4 (line.data.take 1023)

/-- Outcome of `cmd_mypid`. -/
def cmd_mypid (env : Env) (proc : process) : Int :=
  if proc.argv.length < 2 then -1
  else
    let opt := proc.argv.getD 1 ""
    if opt = "-i" then 1
    else if proc.argv.length < 3 then -1
    else
      let target_pid := atoi (proc.argv.getD 2 "").data
      if opt = "-p" then
        if get_parent_pid env target_pid = -1 then -1 else 1
      else if opt = "-c" then 1
      else -1

/-- Outcome of `cmd_replay`: every path reports an error. -/
def cmd_replay (_proc : process) : Int := -1

/-- An entry of the built-in table.  `func` gives the handler's outcome,
`none` when the handler ends the interpreter (`exit(0)`). -/
structure builtin_cmd where
  name : String
  func : Env → process → Option Int
  id : CmdType

/-- The table `builtins[]`. -/
def builtins : List builtin_cmd :=
  [ ⟨"exit", fun _ _ => none, CMD_EXIT⟩,
    ⟨"cd", fun _ _ => some 1, CMD_CD⟩,
    ⟨"help", fun _ _ => some 1, CMD_HELP⟩,
    ⟨"echo", fun _ p => some (cmd_echo p).2, CMD_ECHO⟩,
    ⟨"record", fun _ _ => some 1, CMD_RECORD⟩,
    ⟨"replay", fun _ p => some (cmd_replay p), CMD_REPLAY⟩,
    ⟨"mypid", fun env p => some (cmd_mypid env p), CMD_MYPID⟩ ]

/-- Command kind by name: first match in the table, else external. -/
def get_cmd_id (name : String) : CmdType :=
  match builtins.find? (fun b => decide (b.name = name)) with
  | some b => b.id
  | none => CMD_EXTERNAL

/-! ## System calls on the descriptor table -/

/-- Lowest descriptor number that is not open. -/
def lowest_free (fds : List Nat) : Nat :=
  ((List.range (fds.length + 1)).find? (fun n => decide (n ∉ fds))).getD fds.length

/-- Append an event to the trace. -/
def Sys.emit (k : Sys) (e : Ev) : Sys :=
  { k with trace := k.trace ++ [e] }

/-- A successful `open`: the lowest free descriptor becomes open. -/
def sys_open (k : Sys) : Nat × Sys :=
  (lowest_free k.fds,
   { fds := lowest_free k.fds :: k.fds, trace := k.trace ++ [Ev.opened (lowest_free k.fds)] })

/-- The call `close(fd)`: an open descriptor leaves the table, anything else
is a failed close. -/
def sys_close (k : Sys) (fd : Nat) : Sys :=
  if fd ∈ k.fds then { fds := k.fds.erase fd, trace := k.trace ++ [Ev.closed fd] }
  else k.emit (Ev.badClose fd)

/-- A successful `pipe`: read end, write end, new state. -/
def sys_pipe (k : Sys) : Nat × Nat × Sys :=
  ((sys_open k).1, (sys_open (sys_open k).2).1, (sys_open (sys_open k).2).2)

/-! ## `src/shell.c` -/

/-- Resolve one redirection: the caller's descriptor when there is no path,
a freshly opened one otherwise. -/
def open_redirect (path : Option String) (dflt : Nat) (k : Sys) : Nat × Sys :=
  match path with
  | none => (dflt, k)
  | some _ => sys_open k

/-- The two guarded closes "close redirected files". -/
def close_redirects (p : process) (in_fd out_fd infile_fd outfile_fd : Nat) (k : Sys) : Sys :=
  let k1 := if p.infile.isSome ∧ infile_fd ≠ in_fd then sys_close k infile_fd else k
  if p.outfile.isSome ∧ outfile_fd ≠ out_fd then sys_close k1 outfile_fd else k1

/-- Launch stage number `i`: `launch_process(j, p, in_fd, out_fd)`.  The result
is `none` when this process leaves the shell code (the `exit` built-in, or the
child side of `fork`), otherwise the return value with the updated job, stage
and system state. -/
def launch_process (env : Env) (i : Nat) (j : job) (p : process) (in_fd out_fd : Nat)
    (k : Sys) : Option (Int × job × process × Sys) :=
  if p.infile.isSome ∧ env.open_in_ok i = false then
    some (-1, j, p, k.emit (Ev.perror (p.infile.getD "")))
  else
    let infile_fd := (open_redirect p.infile in_fd k).1
    let k1 := (open_redirect p.infile in_fd k).2
    if p.outfile.isSome ∧ env.open_out_ok i = false then
      let k2 := k1.emit (Ev.perror (p.outfile.getD ""))
      some (-1, j, p, if p.infile.isSome ∧ infile_fd ≠ in_fd then sys_close k2 infile_fd else k2)
    else
      let outfile_fd := (open_redirect p.outfile out_fd k1).1
      let k2 := (open_redirect p.outfile out_fd k1).2
      match (if p.type ≠ CMD_EXTERNAL then builtins.find? (fun b => decide (b.id = p.type))
             else none) with
      | some b =>
        match b.func env p with
        | none => none
        | some ret =>
          some (ret, j, p,
            close_redirects p in_fd out_fd infile_fd outfile_fd
              (k2.emit (Ev.builtin i p.type infile_fd outfile_fd ret)))
      | none =>
        let pid := env.fork_ret i
        if pid = 0 then none
        else
          some (0, (if j.pgid = 0 then { j with pgid := pid } else j), { p with pid := pid },
            close_redirects p in_fd out_fd infile_fd outfile_fd
              (k2.emit (Ev.fork i pid infile_fd outfile_fd)))

/-- The scan of `get_job_id` from slot `i` with `n` slots left to look at. -/
def get_job_id_from (jobs : List (Option Nat)) : Nat → Nat → Int
  | _, 0 => -1
  | i, n + 1 => if jobs.getD i none = none then (i : Int) else get_job_id_from jobs (i + 1) n

/-- First empty slot among 1..MAX_JOBS, or -1. -/
def get_job_id (sh : shell_info) : Int :=
  get_job_id_from sh.jobs 1 MAX_JOBS

/-- The job table after `shell_init`: slots 0..MAX_JOBS cleared. -/
def shell_init : shell_info :=
  { jobs := List.replicate (MAX_JOBS + 1) none }

/-- State of the stage loop of `launch_job` when it stops: `status` is -1 when
the loop was left by one of its `return -1`, 0 when it ran to its end. -/
structure LoopOut where
  status : Int
  procs : List process
  j : job
  in_fd : Nat
  rightmost_pid : Int
  k : Sys
  deriving DecidableEq, Repr

/-- The loop "launch each process in the pipeline" of `launch_job`, from stage
number `i` on, with the stages still to launch. -/
def launch_stages (env : Env) :
    Nat → List process → job → Nat → Int → Sys → Option LoopOut
  | _, [], j, in_fd, rm, k => some ⟨0, [], j, in_fd, rm, k⟩
  | i, p :: rest, j, in_fd, rm, k =>
    if rest ≠ [] ∧ env.pipe_ok i = false then
      some ⟨-1, p :: rest, j, in_fd, rm, k.emit (Ev.perror "pipe")⟩
    else
      let pipe_rd := (sys_pipe k).1
      let pipe_wr := (sys_pipe k).2.1
      let out_fd := if rest ≠ [] then pipe_wr else STDOUT_FILENO
      let k1 := if rest ≠ [] then (sys_pipe k).2.2 else k
      let rm1 := if rest ≠ [] then rm else 0
      match launch_process env i j p in_fd out_fd k1 with
      | none => none
      | some (ret, j1, p1, k2) =>
        if ret < 0 then
          some ⟨-1, p1 :: rest, j1, in_fd, rm1,
            if rest ≠ [] then sys_close (sys_close k2 pipe_rd) pipe_wr else k2⟩
        else
          let rm2 := if rest ≠ [] then rm1 else p1.pid
          let k3 := if rest ≠ [] then sys_close k2 pipe_wr else k2
          let k4 := if rest ≠ [] ∧ in_fd ≠ STDIN_FILENO then sys_close k3 in_fd else k3
          let in_fd1 := if rest ≠ [] then pipe_rd else in_fd
          match launch_stages env (i + 1) rest j1 in_fd1 rm2 k4 with
          | none => none
          | some out => some { out with procs := p1 :: out.procs }

/-- The foreground wait loop: one `waitpid` per external stage, in chain
order. -/
def wait_all : List process → Sys → Sys
  | [], k => k
  | p :: rest, k =>
    wait_all rest (if p.type = CMD_EXTERNAL then k.emit (Ev.waitpid p.pid) else k)

/-- Launch a job: `launch_job(j)` where `jp` is the address `j` of the
descriptor.  `none` when the process leaves the shell code. -/
def launch_job (env : Env) (jp : Nat) (j : job) (sh : shell_info) (k : Sys) :
    Option (Int × job × shell_info × Sys) :=
  let j0 := if j.mode = BG_EXEC then { j with id := get_job_id sh } else j
  let sh0 : shell_info :=
    if j.mode = BG_EXEC ∧ j0.id > 0 then { jobs := sh.jobs.set j0.id.toNat (some jp) } else sh
  match launch_stages env 0 j0.first j0 STDIN_FILENO 0 k with
  | none => none
  | some out =>
    let j1 := { out.j with first := out.procs }
    if out.status < 0 then some (-1, j1, sh0, out.k)
    else
      let k1 := if out.in_fd ≠ STDIN_FILENO then sys_close out.k out.in_fd else out.k
      if j1.mode = FG_EXEC then
        some (0, j1, sh0, wait_all j1.first k1)
      else
        let k2 := if out.rightmost_pid > 0 then
            k1.emit (Ev.stdout (toString out.rightmost_pid ++ "\n")) else k1
        let k3 := if j1.id > 0 then
            k2.emit (Ev.stdout ("[" ++ toString j1.id ++ "] " ++ toString j1.pgid ++ "\n")) else k2
        some (0, j1, sh0, k3)

/-- The read-eval loop of `main`, reduced to its `launch_job` calls: the jobs
are launched one after the other; `none` when the interpreter ends on the
way. -/
def run_jobs : List (Env × Nat × job) → shell_info → Sys →
    Option (List (Int × job) × shell_info × Sys)
  | [], sh, k => some ([], sh, k)
  | (env, jp, j) :: rest, sh, k =>
    match launch_job env jp j sh k with
    | none => none
    | some (st, j1, sh1, k1) =>
      match run_jobs rest sh1 k1 with
      | none => none
      | some (rs, sh2, k2) => some ((st, j1) :: rs, sh2, k2)

/-! ## `src/command.c`: replay substitution -/

/-- Replay substitution `process_replay(line)` against the history, with the
history as it is after the call.  The string is `none` when `strcpy`/`strcat`
would write past the `LINE_LEN` bytes of `new_cmd`: the bytes of the new line
and its terminator do not fit. -/
def process_replay (h : History) (line : String) : Option String × History :=
  if line.data.take 7 ≠ "replay ".data then (some line, h)
  else
    match (strtok_r (strtok_r line.data [Char.ofNat 32]).2 [Char.ofNat 32]) with
    | (none, _) => (some line, h)
    | (some token, save) =>
      let idx := atoi token
      if idx < 1 ∨ idx > h.history_count then (some line, h)
      else
        let rest := (strtok_r save []).1
        let new_cmd := (h.history.getD (idx - 1).toNat "").data ++ rest.getD []
        if (String.mk new_cmd).utf8ByteSize < LINE_LEN then (some (String.mk new_cmd), h)
        else (none, h)

/-! ## `src/shell.c`: the history buffer -/

/-- Add a command line to the history: `add_history(line)`.  The rows are the
`MAX_HISTORY` rows of the array.  The result is `none` when `strcpy` would
write outside the row it is given: the bytes of the line and its terminator do
not fit the `LINE_LEN` bytes of a row, or `history_count` is negative. -/
def add_history (h : History) (line : String) : Option History :=
  if line.data = [] then some h
  else if h.history_count < 0 ∨ LINE_LEN ≤ line.utf8ByteSize then none
  else if h.history_count < MAX_HISTORY then
    some ⟨(List.range MAX_HISTORY).map
        (fun i => if i = h.history_count.toNat then line else h.history.getD i ""),
      h.history_count + 1⟩
  else
    some ⟨(List.range MAX_HISTORY).map
        (fun i => if i < MAX_HISTORY - 1 then h.history.getD (i + 1) "" else line),
      h.history_count⟩

/-! ## `src/command.c`: parsing -/

/-- The delimiters `TOK_DELIM`: blank, \t, \r, \n, \a. -/
def TOK_DELIM : List Char :=
  [Char.ofNat 32, Char.ofNat 9, Char.ofNat 13, Char.ofNat 10, Char.ofNat 7]

/-- Initial capacity `TOK_LEN` of the argument array. -/
def TOK_LEN : Nat := 64

/-- The tokens that successive `strtok_r` calls find in `s`, with `n` calls
allowed. -/
def tokens_fuel (delim : List Char) : Nat → List Char → List (List Char)
  | 0, _ => []
  | n + 1, s =>
    match strtok_r s delim with
    | (none, _) => []
    | (some tok, save) => tok :: tokens_fuel delim n save

/-- The tokens of a `for (tok = strtok_r(s, delim, &save); tok; tok =
strtok_r(NULL, delim, &save))` loop; every call that finds a token moves the
saved position forward, so one call per character and one more are enough. -/
def tokens (delim : List Char) (s : List Char) : List (List Char) :=
  tokens_fuel delim (s.length + 1) s

/-- The variables of the token loop of `parse_segment`. -/
structure SegState where
  argv : List String
  infile : Option String
  outfile : Option String
  cap : Nat
  deriving DecidableEq, Repr

/-- The capacity after the check `if (pos >= cap) cap *= 2`. -/
def grow (st : SegState) : Nat :=
  if st.argv.length ≥ st.cap then 2 * st.cap else st.cap

/-- The token loop of `parse_segment` over the tokens of the segment: a `<` or
`>` takes the next token as path, any other token is an argument.  `none`
when a redirection token is the last token (`strdup(NULL)`). -/
def collect_tokens : List (List Char) → SegState → Option SegState
  | [], st => some st
  | [tok], st =>
    if tok = "<".data ∨ tok = ">".data then none
    else some { st with cap := grow st, argv := st.argv ++ [String.mk tok] }
  | tok :: t :: rest, st =>
    if tok = "<".data then
      collect_tokens rest { st with cap := grow st, infile := some (String.mk t) }
    else if tok = ">".data then
      collect_tokens rest { st with cap := grow st, outfile := some (String.mk t) }
    else
      collect_tokens (t :: rest) { st with cap := grow st, argv := st.argv ++ [String.mk tok] }

/-- Parse one segment: `parse_segment(seg)`.  `none` when the token loop fails
or when `argv[pos] = NULL` falls outside the `cap` entries of `argv`. -/
def parse_segment (seg : List Char) : Option process :=
  match collect_tokens (tokens TOK_DELIM seg) ⟨[], none, none, TOK_LEN⟩ with
  | none => none
  | some st =>
    if st.cap ≤ st.argv.length then none
    else some ⟨st.argv, st.infile, st.outfile, 0,
      match st.argv with
      | [] => CMD_EXTERNAL
      | a :: _ => get_cmd_id a⟩

/-- Background detection of `parse_line`: a last character `&` gives
background mode and is cut off together with the blanks before it. -/
def strip_background (s : List Char) : ExecMode × List Char :=
  if s.getLast? = some (Char.ofNat 38) then
    (BG_EXEC, s.dropLast.rdropWhile (fun c => decide (c = Char.ofNat 32)))
  else (FG_EXEC, s)

/-- The segment loop of `parse_line`: leading blanks are skipped, the segment
is parsed and attached at the end of the chain. -/
def parse_segments : List (List Char) → Option (List process)
  | [] => some []
  | seg :: rest =>
    match parse_segment (seg.dropWhile (fun c => decide (c = Char.ofNat 32))) with
    | none => none
    | some p =>
      match parse_segments rest with
      | none => none
      | some ps => some (p :: ps)

/-- Parse an input line into a job: `parse_line(line)`, with the history as
it is after the call.  `none` when one of the steps has no defined result. -/
def parse_line (h : History) (line : String) : Option (job × History) :=
  match (process_replay h line).1 with
  | none => none
  | some processed_line =>
    match add_history (process_replay h line).2 processed_line with
    | none => none
    | some h1 =>
      match parse_segments
          (tokens [Char.ofNat 124] (strip_background processed_line.data).2) with
      | none => none
      | some ps =>
        some (⟨0, 0, (strip_background processed_line.data).1, processed_line, ps⟩, h1)

/-! ## Vocabulary of the statements -/

/-- Descriptor-table events. -/
def Ev.isFd : Ev → Bool
  | Ev.opened _ => true
  | Ev.closed _ => true
  | Ev.badClose _ => true
  | _ => false

/-- Events added by a call, seen from the descriptor table: no failed close,
no close of a descriptor in `F`, and as many closes as opens of every
descriptor number. -/
def FdClean (F : List Nat) (evs : List Ev) : Prop :=
  (∀ fd, Ev.badClose fd ∉ evs) ∧ (∀ fd, Ev.closed fd ∈ evs → fd ∉ F) ∧
    (∀ fd, evs.count (Ev.opened fd) = evs.count (Ev.closed fd))

/-- One more close is owed for the carried pipe read end `c` (0: none). -/
def carry (c fd : Nat) : Nat := if c ≠ 0 ∧ fd = c then 1 else 0

/-- The table while the stage loop runs: the table `P` of before the call,
plus the carried pipe read end. -/
def LoopFds (P : List Nat) (in_fd : Nat) (fds : List Nat) : Prop :=
  (in_fd ≠ 0 → in_fd ∉ P) ∧ fds = if in_fd = 0 then P else in_fd :: P

/-- Stage number of a launch event. -/
def Ev.stage : Ev → Option Nat
  | Ev.fork s _ _ _ => some s
  | Ev.builtin s _ _ _ _ => some s
  | _ => none

/-- Events of the part of `launch_job` that follows the stage loop. -/
def Ev.afterLoop : Ev → Bool
  | Ev.waitpid _ => true
  | Ev.stdout _ => true
  | _ => false

/-- The trace of `k1` extends the one of `k` by descriptor events only. -/
def FdExt (k k1 : Sys) : Prop :=
  ∃ X, k1.trace = k.trace ++ X ∧ ∀ e ∈ X, e.isFd = true

/-- An event of the stage loop from stage `i` on: not a wait, not a notice,
and if it is a launch, then of a stage numbered at least `i`. -/
def LoopEv (i : Nat) (e : Ev) : Prop :=
  e.afterLoop = false ∧ ∀ s, e.stage = some s → i ≤ s

/-- The chain after a launch that went through: every external stage carries
the value `fork` returned for it, built-in stages are as they were. -/
def record_pids (env : Env) : Nat → List process → List process
  | _, [] => []
  | i, p :: rest =>
    (if p.type = CMD_EXTERNAL then { p with pid := env.fork_ret i } else p) ::
      record_pids env (i + 1) rest

/-- Pid recorded in the last stage of a chain, `dflt` for an empty chain. -/
def last_pid (dflt : Int) : List process → Int
  | [] => dflt
  | [p] => p.pid
  | _ :: q :: rest => last_pid dflt (q :: rest)

/-- Text lines that `launch_job` itself wrote to standard output. -/
def stdout_lines (evs : List Ev) : List String :=
  evs.filterMap (fun e => match e with
    | Ev.stdout t => some t
    | _ => none)

/-- A job table whose slots 1.. hold the jobs at the addresses `pre`, in this
order, followed by `m` empty slots; slot 0 is unused. -/
def table_of (pre : List Nat) (m : Nat) : List (Option Nat) :=
  none :: (pre.map some ++ List.replicate m none)

/-- The index token of a replay line in the words of the specification: the
first run of non-blank characters after the leading `replay `. -/
def index_token (line : String) : List Char :=
  ((line.data.drop 7).dropWhile (fun c => decide (c = Char.ofNat 32))).takeWhile
    (fun c => decide (c ≠ Char.ofNat 32))

/-- Strings joined by single blanks, in the words of the specification. -/
def join_blank : List String → String
  | [] => ""
  | [a] => a
  | a :: b :: rest => a ++ " " ++ join_blank (b :: rest)

/-- The fields that the character `d` cuts a string into, empty ones
included. -/
def split_on (d : Char) : List Char → List (List Char)
  | [] => [[]]
  | c :: cs =>
    if c = d then [] :: split_on d cs
    else
      match split_on d cs with
      | [] => [[c]]
      | f :: fs => (c :: f) :: fs

/-- The pipeline stages of a line in the words of the specification: the
non-empty pieces between its `|` characters. -/
def pipeline_stages (s : List Char) : List (List Char) :=
  (split_on (Char.ofNat 124) s).filter (fun f => decide (f ≠ []))

/-- The entries of the history, oldest first: the first `history_count` rows,
the ones `cmd_record` lists. -/
def entries (h : History) : List String :=
  (List.range h.history_count.toNat).map (fun i => h.history.getD i "")

/-- The last `n` elements of a list, in the same order. -/
def last_n (n : Nat) (l : List String) : List String :=
  l.drop (l.length - n)

/-! ## Sample inputs and their outcomes -/

/-- An operating system where every call succeeds; stage `i` gets pid `100 + i`. -/
def env_ok : Env :=
  ⟨fun _ => true, fun _ => true, fun _ => true, fun i => 100 + (i : Int), fun _ => none⟩

/-- A parent with the three standard descriptors open and an empty trace. -/
def sys0 : Sys := ⟨[0, 1, 2], []⟩

/-- The foreground job of `ls | wc < in > out`. -/
def job_ls_wc : job :=
  ⟨0, 0, FG_EXEC, "ls | wc < in > out",
    [⟨["ls"], none, none, 0, CMD_EXTERNAL⟩, ⟨["wc"], some "in", some "out", 0, CMD_EXTERNAL⟩]⟩

/-- Job `ls | wc < in > out` after its launch under `env_ok`. -/
def job_ls_wc_done : job :=
  ⟨0, 100, FG_EXEC, "ls | wc < in > out",
    [⟨["ls"], none, none, 100, CMD_EXTERNAL⟩, ⟨["wc"], some "in", some "out", 101, CMD_EXTERNAL⟩]⟩

/-- Parent after the launch of `ls | wc < in > out` under `env_ok`. -/
def sys_ls_wc_done : Sys :=
  ⟨[0, 1, 2],
    [Ev.opened 3, Ev.opened 4, Ev.fork 0 100 0 4, Ev.closed 4, Ev.opened 4, Ev.opened 5,
      Ev.fork 1 101 4 5, Ev.closed 4, Ev.closed 5, Ev.closed 3, Ev.waitpid 100, Ev.waitpid 101]⟩

/-- An operating system where no input-redirect file can be opened. -/
def env_no_input : Env :=
  ⟨fun _ => true, fun _ => false, fun _ => true, fun i => 100 + (i : Int), fun _ => none⟩

/-- The foreground job of `ls | cat < missing`. -/
def job_ls_cat_missing : job :=
  ⟨0, 0, FG_EXEC, "ls | cat < missing",
    [⟨["ls"], none, none, 0, CMD_EXTERNAL⟩, ⟨["cat"], some "missing", none, 0, CMD_EXTERNAL⟩]⟩

/-- The foreground job of `mypid | wc`. -/
def job_mypid_wc : job :=
  ⟨0, 0, FG_EXEC, "mypid | wc",
    [⟨["mypid"], none, none, 0, CMD_MYPID⟩, ⟨["wc"], none, none, 0, CMD_EXTERNAL⟩]⟩

/-- Parent after the launch of `mypid | wc`. -/
def sys_mypid_wc_done : Sys :=
  ⟨[0, 1, 2],
    [Ev.opened 3, Ev.opened 4, Ev.builtin 0 CMD_MYPID 0 4 (-1), Ev.closed 3, Ev.closed 4]⟩

/-- The background job of `ls | wc < in > out`. -/
def job_ls_wc_bg : job :=
  ⟨0, 0, BG_EXEC, "ls | wc < in > out &",
    [⟨["ls"], none, none, 0, CMD_EXTERNAL⟩, ⟨["wc"], some "in", some "out", 0, CMD_EXTERNAL⟩]⟩

/-- An operating system where `fork` fails for stage 0 and succeeds after. -/
def env_fork_fails : Env :=
  ⟨fun _ => true, fun _ => true, fun _ => true,
    fun i => if i = 0 then -1 else 100 + (i : Int), fun _ => none⟩

/-- The foreground job of `ls | wc`. -/
def job_ls_pipe_wc : job :=
  ⟨0, 0, FG_EXEC, "ls | wc",
    [⟨["ls"], none, none, 0, CMD_EXTERNAL⟩, ⟨["wc"], none, none, 0, CMD_EXTERNAL⟩]⟩

/-- The background job of `cd &`. -/
def job_cd_bg : job :=
  ⟨0, 0, BG_EXEC, "cd &", [⟨["cd"], none, none, 0, CMD_CD⟩]⟩

/-- Job `ls | wc < in > out &` after its launch under `env_ok`. -/
def job_ls_wc_bg_done : job :=
  ⟨1, 100, BG_EXEC, "ls | wc < in > out &",
    [⟨["ls"], none, none, 100, CMD_EXTERNAL⟩, ⟨["wc"], some "in", some "out", 101, CMD_EXTERNAL⟩]⟩

/-- Events of the launch of `ls | wc < in > out &` under `env_ok`. -/
def evs_ls_wc_bg : List Ev :=
  [Ev.opened 3, Ev.opened 4, Ev.fork 0 100 0 4, Ev.closed 4, Ev.opened 4, Ev.opened 5,
    Ev.fork 1 101 4 5, Ev.closed 4, Ev.closed 5, Ev.closed 3,
    Ev.stdout "101\n", Ev.stdout "[1] 100\n"]

/-- Two background jobs to launch in a row: `cd &` at address 7, then
`ls | wc < in > out &` at address 8. -/
def batch_two : List (Env × Nat × job) :=
  [(env_ok, 7, job_cd_bg), (env_ok, 8, job_ls_wc_bg)]

/-- Outcome of the two launches of `batch_two`. -/
def batch_two_results : List (Int × job) :=
  [(0, ⟨1, 0, BG_EXEC, "cd &", [⟨["cd"], none, none, 0, CMD_CD⟩]⟩),
   (0, ⟨2, 100, BG_EXEC, "ls | wc < in > out &",
      [⟨["ls"], none, none, 100, CMD_EXTERNAL⟩, ⟨["wc"], some "in", some "out", 101, CMD_EXTERNAL⟩]⟩)]

/-- Parent after the two launches of `batch_two`. -/
def batch_two_sys : Sys :=
  ⟨[0, 1, 2],
    [Ev.builtin 0 CMD_CD 0 1 1, Ev.stdout "[1] 0\n", Ev.opened 3, Ev.opened 4,
      Ev.fork 0 100 0 4, Ev.closed 4, Ev.opened 4, Ev.opened 5, Ev.fork 1 101 4 5, Ev.closed 4,
      Ev.closed 5, Ev.closed 3, Ev.stdout "101\n", Ev.stdout "[2] 100\n"]⟩

/-- The history `["ls -l", "echo hi"]`. -/
def hist_two : History := ⟨["ls -l", "echo hi"], 2⟩

/-- A history with all `MAX_HISTORY` rows in use. -/
def hist_full : History :=
  ⟨["c1", "c2", "c3", "c4", "c5", "c6", "c7", "c8", "c9", "c10", "c11", "c12", "c13", "c14",
    "c15", "c16"], 16⟩

/-- The job that `parse_line` makes of `ls | | wc`. -/
def job_ls_empty_wc : job :=
  ⟨0, 0, FG_EXEC, "ls | | wc",
    [⟨["ls"], none, none, 0, CMD_EXTERNAL⟩, ⟨[], none, none, 0, CMD_EXTERNAL⟩,
      ⟨["wc"], none, none, 0, CMD_EXTERNAL⟩]⟩

/-- The history `["ls -l", "echo hi"]` after the line `ls | | wc`. -/
def hist_three : History :=
  ⟨["ls -l", "echo hi", "ls | | wc", "", "", "", "", "", "", "", "", "", "", "", "", ""], 3⟩

/-- A line of 600 characters of two bytes each (e with acute accent): 1200
bytes. -/
def line_two_byte_chars : String :=
  String.mk (List.replicate 600 (Char.ofNat 233))

/-! ## The descriptor table during a launch -/

theorem lowest_free_not_mem (fds : List Nat) : lowest_free fds ∉ fds := by
  unfold lowest_free
  cases hf : (List.range (fds.length + 1)).find? (fun n => decide (n ∉ fds)) with
  | some n =>
    have := List.find?_some hf
    simpa using this
  | none =>
    exfalso
    rw [List.find?_eq_none] at hf
    have hsub : List.range (fds.length + 1) ⊆ fds := by
      intro x hx
      have := hf x hx
      simpa using this
    have := ((List.nodup_range (fds.length + 1)).subperm hsub).length_le
    simp at this

theorem builtin_lookup_none (t : CmdType) :
    (if t ≠ CMD_EXTERNAL then builtins.find? (fun b => decide (b.id = t)) else none) = none ↔
      t = CMD_EXTERNAL := by
  cases t <;> simp [builtins]

theorem redirects_balanced (p : process) (in_fd out_fd : Nat) (k : Sys) (e : Ev)
    (he : e.isFd = false) (hin : in_fd ∈ k.fds) (hout : out_fd ∈ k.fds) :
    (close_redirects p in_fd out_fd (open_redirect p.infile in_fd k).1
        (open_redirect p.outfile out_fd (open_redirect p.infile in_fd k).2).1
        ((open_redirect p.outfile out_fd (open_redirect p.infile in_fd k).2).2.emit e)).fds = k.fds ∧
    ∃ evs, (close_redirects p in_fd out_fd (open_redirect p.infile in_fd k).1
        (open_redirect p.outfile out_fd (open_redirect p.infile in_fd k).2).1
        ((open_redirect p.outfile out_fd (open_redirect p.infile in_fd k).2).2.emit e)).trace
          = k.trace ++ evs ∧ FdClean k.fds evs ∧ evs.filter (fun x => !x.isFd) = [e] := by
  obtain ⟨F, T⟩ := k
  simp only at hin hout
  have f1 := lowest_free_not_mem F
  have f2 := lowest_free_not_mem (lowest_free F :: F)
  have n1 : lowest_free F ≠ in_fd := fun h => f1 (h ▸ hin)
  have n2 : lowest_free F ≠ out_fd := fun h => f1 (h ▸ hout)
  have n3 : lowest_free (lowest_free F :: F) ≠ out_fd := fun h => f2 (h ▸ List.mem_cons_of_mem _ hout)
  have n5 : lowest_free (lowest_free F :: F) ≠ lowest_free F :=
    fun h => f2 (by rw [h]; exact List.mem_cons_self _ _)
  have n6 : lowest_free (lowest_free F :: F) ∉ F := fun h => f2 (List.mem_cons_of_mem _ h)
  obtain ⟨argv, inf, outf, pid, ty⟩ := p
  cases e <;> simp [Ev.isFd] at he <;>
  cases inf <;> cases outf <;>
    simp [open_redirect, close_redirects, sys_open, sys_close, Sys.emit, n1, n2, n3, n5, FdClean, Ev.isFd,
      List.count_cons, f1, n6]

/-- What one call of `launch_process` does: the descriptor table is the same
afterwards, the descriptor events are balanced and touch no descriptor that
was open before, and exactly one other event is left: the error report, the
built-in call, or the fork. -/
theorem launch_process_spec (env : Env) (i : Nat) (j : job) (p : process) (in_fd out_fd : Nat)
    (k : Sys) (ret : Int) (j1 : job) (p1 : process) (k1 : Sys)
    (hin : in_fd ∈ k.fds) (hout : out_fd ∈ k.fds)
    (h : launch_process env i j p in_fd out_fd k = some (ret, j1, p1, k1)) :
    k1.fds = k.fds ∧ ∃ evs e, k1.trace = k.trace ++ evs ∧ FdClean k.fds evs ∧
      evs.filter (fun x => !x.isFd) = [e] ∧
      ((∃ w, e = Ev.perror w ∧ ret = -1 ∧ j1 = j ∧ p1 = p) ∨
       (∃ a b, e = Ev.builtin i p.type a b ret ∧ p.type ≠ CMD_EXTERNAL ∧ j1 = j ∧ p1 = p) ∨
       (∃ a b, e = Ev.fork i (env.fork_ret i) a b ∧ ret = 0 ∧ p.type = CMD_EXTERNAL ∧
          j1 = (if j.pgid = 0 then { j with pgid := env.fork_ret i } else j) ∧
          p1 = { p with pid := env.fork_ret i })) := by
  unfold launch_process at h
  split at h
  · simp only [Option.some.injEq, Prod.mk.injEq] at h
    obtain ⟨rfl, rfl, rfl, rfl⟩ := h
    refine ⟨rfl, [Ev.perror (p.infile.getD "")], Ev.perror (p.infile.getD ""), rfl, ?_, rfl, ?_⟩
    · simp [FdClean]
    · exact Or.inl ⟨_, rfl, rfl, rfl, rfl⟩
  · simp only at h
    split at h
    · simp only [Option.some.injEq, Prod.mk.injEq] at h
      obtain ⟨rfl, rfl, rfl, rfl⟩ := h
      have f1 := lowest_free_not_mem k.fds
      have n1 : lowest_free k.fds ≠ in_fd := fun h => f1 (h ▸ hin)
      obtain ⟨F, T⟩ := k
      obtain ⟨argv, inf, outf, pid, ty⟩ := p
      cases inf with
      | none =>
        refine ⟨by simp [open_redirect, Sys.emit], [Ev.perror (outf.getD "")], Ev.perror (outf.getD ""),
          by simp [open_redirect, Sys.emit], by simp [FdClean], rfl, Or.inl ⟨_, rfl, rfl, rfl, rfl⟩⟩
      | some path =>
        simp only at n1
        refine ⟨by simp [open_redirect, sys_open, sys_close, Sys.emit, n1],
          [Ev.opened (lowest_free F), Ev.perror (outf.getD ""), Ev.closed (lowest_free F)],
          Ev.perror (outf.getD ""), ?_, ?_, by simp [Ev.isFd], Or.inl ⟨_, rfl, rfl, rfl, rfl⟩⟩
        · simp [open_redirect, sys_open, sys_close, Sys.emit, n1]
        · simpa [FdClean, List.count_cons] using f1
    · split at h
      · rename_i b hb
        split at h
        · exact absurd h (by simp)
        · rename_i r hr
          simp only [Option.some.injEq, Prod.mk.injEq] at h
          obtain ⟨rfl, rfl, rfl, rfl⟩ := h
          obtain ⟨hf, evs, ht, hc, hfil⟩ :=
            redirects_balanced p in_fd out_fd k (Ev.builtin i p.type
              (open_redirect p.infile in_fd k).1
              (open_redirect p.outfile out_fd (open_redirect p.infile in_fd k).2).1 r) rfl hin hout
          refine ⟨hf, evs, _, ht, hc, hfil, Or.inr (Or.inl ⟨_, _, rfl, ?_, rfl, rfl⟩)⟩
          intro hext
          have := (builtin_lookup_none p.type).2 hext
          rw [this] at hb
          exact absurd hb (by simp)
      · rename_i hb
        split at h
        · exact absurd h (by simp)
        · simp only [Option.some.injEq, Prod.mk.injEq] at h
          obtain ⟨rfl, rfl, rfl, rfl⟩ := h
          obtain ⟨hf, evs, ht, hc, hfil⟩ :=
            redirects_balanced p in_fd out_fd k (Ev.fork i (env.fork_ret i)
              (open_redirect p.infile in_fd k).1
              (open_redirect p.outfile out_fd (open_redirect p.infile in_fd k).2).1) rfl hin hout
          exact ⟨hf, evs, _, ht, hc, hfil, Or.inr (Or.inr ⟨_, _, rfl, rfl,
            (builtin_lookup_none p.type).1 hb, rfl, rfl⟩)⟩

theorem launch_stages_fds (env : Env) (P : List Nat) (h0 : 0 ∈ P) (h1 : 1 ∈ P) :
    ∀ (ps : List process) (i : Nat) (j : job) (in_fd : Nat) (rm : Int) (k : Sys) (out : LoopOut),
      LoopFds P in_fd k.fds → launch_stages env i ps j in_fd rm k = some out → 0 ≤ out.status →
      LoopFds P out.in_fd out.k.fds ∧ ∃ evs, out.k.trace = k.trace ++ evs ∧
        (∀ fd, Ev.badClose fd ∉ evs) ∧ (∀ fd, Ev.closed fd ∈ evs → fd ∉ P) ∧
        (∀ fd, evs.count (Ev.opened fd) + carry in_fd fd
           = evs.count (Ev.closed fd) + carry out.in_fd fd) := by
  intro ps
  induction ps with
  | nil =>
    intro i j in_fd rm k out hinv h _
    simp only [launch_stages, Option.some.injEq] at h
    subst h
    exact ⟨hinv, [], by simp, by simp, by simp, by simp⟩
  | cons p rest ih =>
    intro i j in_fd rm k out hinv h hst
    rw [launch_stages] at h
    split at h
    · simp only [Option.some.injEq] at h
      subst h
      simp at hst
    · rename_i hpipe
      simp only at h
      split at h
      · exact absurd h (by simp)
      · rename_i ret j1 p1 k2 hlp
        split at h
        · simp only [Option.some.injEq] at h
          subst h
          simp at hst
        · rename_i hret
          split at h
          · exact absurd h (by simp)
          · rename_i out1 hrec
            simp only [Option.some.injEq] at h
            subst h
            simp only
            have hret0 : 0 ≤ ret := not_lt.mp hret
            have hP : ∀ x ∈ P, x ∈ k.fds := by
              intro x hx
              rw [hinv.2]
              split
              · exact hx
              · exact List.mem_cons_of_mem _ hx
            have hink : in_fd ∈ k.fds := by
              rw [hinv.2]
              split
              · rename_i h; rw [h]; exact h0
              · exact List.mem_cons_self _ _
            by_cases hr : rest = []
            · subst hr
              simp only [ne_eq, not_true_eq_false, if_false, false_and, launch_stages,
                Option.some.injEq] at hlp hrec
              subst hrec
              obtain ⟨hf, evs, e, ht, hc, -, -⟩ :=
                launch_process_spec env i j p in_fd STDOUT_FILENO k ret j1 p1 k2 hink (hP 1 h1) hlp
              refine ⟨by simpa only [hf] using hinv, evs, ht, hc.1, fun fd hfd hp => hc.2.1 fd hfd (hP fd hp), ?_⟩
              intro fd
              rw [hc.2.2 fd]
            · simp only [ne_eq, hr, not_false_eq_true, if_true, true_and] at hlp hrec
              obtain ⟨F, T⟩ := k
              simp only at hP hink hinv
              have f1 := lowest_free_not_mem F
              have f2 := lowest_free_not_mem (lowest_free F :: F)
              have hr0 : lowest_free F ≠ 0 := fun h => f1 (h ▸ hP 0 h0)
              have hrP : lowest_free F ∉ P := fun h => f1 (hP _ h)
              have hwP : lowest_free (lowest_free F :: F) ∉ P :=
                fun h => f2 (List.mem_cons_of_mem _ (hP _ h))
              have hri : lowest_free F ≠ in_fd := fun h => f1 (h ▸ hink)
              simp only [sys_pipe, sys_open] at hlp hrec
              obtain ⟨hf, evs, e, ht, hc, -, -⟩ :=
                launch_process_spec env i j p in_fd _ _ ret j1 p1 k2
                  (List.mem_cons_of_mem _ (List.mem_cons_of_mem _ hink)) (List.mem_cons_self _ _) hlp
              obtain ⟨F2, T2⟩ := k2
              simp only at hf ht
              subst hf ht
              have hk4 : (if in_fd ≠ STDIN_FILENO then
                  sys_close (sys_close ⟨lowest_free (lowest_free F :: F) :: lowest_free F :: F,
                    T ++ [Ev.opened (lowest_free F)] ++ [Ev.opened (lowest_free (lowest_free F :: F))]
                      ++ evs⟩ (lowest_free (lowest_free F :: F))) in_fd
                  else sys_close ⟨lowest_free (lowest_free F :: F) :: lowest_free F :: F,
                    T ++ [Ev.opened (lowest_free F)] ++ [Ev.opened (lowest_free (lowest_free F :: F))]
                      ++ evs⟩ (lowest_free (lowest_free F :: F))) =
                  ⟨lowest_free F :: P, T ++ ([Ev.opened (lowest_free F),
                    Ev.opened (lowest_free (lowest_free F :: F))] ++ evs ++
                    [Ev.closed (lowest_free (lowest_free F :: F))] ++
                    (if in_fd ≠ 0 then [Ev.closed in_fd] else []))⟩ := by
                by_cases hi : in_fd = 0
                · have hF : F = P := by simpa [hi] using hinv.2
                  subst hF
                  simp [sys_close, hi, STDIN_FILENO]
                · have hF : F = in_fd :: P := by simpa [hi] using hinv.2
                  subst hF
                  simp [sys_close, hi, STDIN_FILENO, hri]
              rw [hk4] at hrec
              obtain ⟨hinv', evs', ht', hb', hc', hbal'⟩ := ih (i + 1) j1 _ _ _ out1
                ⟨fun _ => hrP, by simp [hr0]⟩ hrec hst
              refine ⟨hinv', ([Ev.opened (lowest_free F),
                    Ev.opened (lowest_free (lowest_free F :: F))] ++ evs ++
                    [Ev.closed (lowest_free (lowest_free F :: F))] ++
                    (if in_fd ≠ 0 then [Ev.closed in_fd] else [])) ++ evs',
                by rw [ht']; simp only [List.append_assoc], ?_, ?_, ?_⟩
              · intro fd hm
                simp only [List.mem_append, List.mem_cons, List.mem_singleton, List.not_mem_nil,
                  reduceCtorEq, false_or, or_false] at hm
                rcases hm with (hm | hm) | hm
                · exact hc.1 fd hm
                · split at hm <;> simp at hm
                · exact hb' fd hm
              · intro fd hm
                simp only [List.mem_append, List.mem_cons, List.mem_singleton, List.not_mem_nil,
                  reduceCtorEq, false_or, or_false, Ev.closed.injEq] at hm
                rcases hm with ((hm | hm) | hm) | hm
                · exact fun hp => hc.2.1 fd hm
                    (List.mem_cons_of_mem _ (List.mem_cons_of_mem _ (hP _ hp)))
                · subst hm; exact hwP
                · split at hm
                  · rename_i hi
                    simp only [List.mem_singleton, Ev.closed.injEq] at hm
                    subst hm
                    exact hinv.1 hi
                  · simp at hm
                · exact hc' fd hm
              · intro fd
                have e1 := hc.2.2 fd
                have e2 := hbal' fd
                by_cases hi : in_fd = 0
                · simp [hi, hr0, List.count_cons, carry] at e2 ⊢
                  split_ifs at e2 ⊢ <;> omega
                · simp [hi, hr0, List.count_cons, carry] at e2 ⊢
                  split_ifs at e2 ⊢ <;> omega

theorem wait_all_spec (ps : List process) (k : Sys) :
    (wait_all ps k).fds = k.fds ∧
      (wait_all ps k).trace =
        k.trace ++ (ps.filter (fun p => decide (p.type = CMD_EXTERNAL))).map (fun p => Ev.waitpid p.pid) := by
  induction ps generalizing k with
  | nil => simp [wait_all]
  | cons p rest ih =>
    rw [wait_all]
    by_cases hp : p.type = CMD_EXTERNAL
    · simp [hp, ih, Sys.emit]
    · simp [hp, ih]

theorem FdClean_append_other (F : List Nat) (E X : List Ev) (hE : FdClean F E)
    (hX : ∀ e ∈ X, e.isFd = false) : FdClean F (E ++ X) := by
  have hno : ∀ e : Ev, e.isFd = true → e ∉ X := by
    intro e he hm
    rw [hX e hm] at he
    exact absurd he (by simp)
  refine ⟨?_, ?_, ?_⟩
  · intro fd hm
    rcases List.mem_append.1 hm with hm | hm
    · exact hE.1 fd hm
    · exact hno (Ev.badClose fd) rfl hm
  · intro fd hm
    rcases List.mem_append.1 hm with hm | hm
    · exact hE.2.1 fd hm
    · exact absurd hm (hno (Ev.closed fd) rfl)
  · intro fd
    rw [List.count_append, List.count_append, hE.2.2 fd,
      List.count_eq_zero_of_not_mem (hno (Ev.opened fd) rfl),
      List.count_eq_zero_of_not_mem (hno (Ev.closed fd) rfl)]

/-- The two guarded notice lines of a background job, as one append. -/
theorem notices_spec (k : Sys) (c1 c2 : Prop) [Decidable c1] [Decidable c2] (a b : String) :
    (if c2 then Sys.emit (if c1 then Sys.emit k (Ev.stdout a) else k) (Ev.stdout b)
      else (if c1 then Sys.emit k (Ev.stdout a) else k)) =
    ⟨k.fds, k.trace ++ ((if c1 then [Ev.stdout a] else []) ++ (if c2 then [Ev.stdout b] else []))⟩ := by
  by_cases h1 : c1 <;> by_cases h2 : c2 <;> simp [h1, h2, Sys.emit]

/-! ## Events of a launch, whatever the descriptor table -/

theorem FdExt.refl (k : Sys) : FdExt k k := ⟨[], by simp, by simp⟩

theorem FdExt.trans {a b c : Sys} (h1 : FdExt a b) (h2 : FdExt b c) : FdExt a c := by
  obtain ⟨X, hX, hx⟩ := h1
  obtain ⟨Y, hY, hy⟩ := h2
  refine ⟨X ++ Y, by rw [hY, hX, List.append_assoc], ?_⟩
  intro e he
  rcases List.mem_append.1 he with he | he
  · exact hx e he
  · exact hy e he

theorem FdExt_open (k : Sys) : FdExt k (sys_open k).2 :=
  ⟨[Ev.opened (lowest_free k.fds)], rfl, by simp [Ev.isFd]⟩

theorem FdExt_close (k : Sys) (fd : Nat) : FdExt k (sys_close k fd) := by
  unfold sys_close
  split
  · exact ⟨[Ev.closed fd], rfl, by simp [Ev.isFd]⟩
  · exact ⟨[Ev.badClose fd], rfl, by simp [Ev.isFd]⟩

theorem FdExt_ite (k : Sys) (c : Prop) [Decidable c] (a : Sys) (h : FdExt k a) :
    FdExt k (if c then a else k) := by
  split
  · exact h
  · exact FdExt.refl k

theorem FdExt_open_redirect (path : Option String) (d : Nat) (k : Sys) :
    FdExt k (open_redirect path d k).2 := by
  cases path with
  | none => exact FdExt.refl k
  | some _ => exact FdExt_open k

theorem FdExt_close_redirects (p : process) (a b c d : Nat) (k : Sys) :
    FdExt k (close_redirects p a b c d k) := by
  unfold close_redirects
  simp only
  split
  · split
    · exact (FdExt_close _ _).trans (FdExt_close _ _)
    · exact FdExt_close _ _
  · split
    · exact FdExt_close _ _
    · exact FdExt.refl k

/-- An event between two descriptor-only extensions is the only other event. -/
theorem FdExt_emit {k a b : Sys} (e : Ev) (he : e.isFd = false) (h1 : FdExt k a)
    (h2 : FdExt (a.emit e) b) :
    ∃ evs, b.trace = k.trace ++ evs ∧ evs.filter (fun x => !x.isFd) = [e] := by
  obtain ⟨X, hX, hx⟩ := h1
  obtain ⟨Y, hY, hy⟩ := h2
  refine ⟨X ++ e :: Y, by rw [hY]; simp [Sys.emit, hX], ?_⟩
  have hXf : X.filter (fun x => !x.isFd) = [] := by
    rw [List.filter_eq_nil_iff]
    intro x hm
    simp [hx x hm]
  have hYf : Y.filter (fun x => !x.isFd) = [] := by
    rw [List.filter_eq_nil_iff]
    intro x hm
    simp [hy x hm]
  simp [List.filter_cons, hXf, hYf, he]

/-- The one event of a `launch_process` call that is not a descriptor event,
with the return value and the updates it goes with. -/
theorem launch_process_events (env : Env) (i : Nat) (j : job) (p : process) (in_fd out_fd : Nat)
    (k : Sys) (ret : Int) (j1 : job) (p1 : process) (k1 : Sys)
    (h : launch_process env i j p in_fd out_fd k = some (ret, j1, p1, k1)) :
    ∃ evs e, k1.trace = k.trace ++ evs ∧ evs.filter (fun x => !x.isFd) = [e] ∧
      ((∃ w, e = Ev.perror w ∧ ret = -1 ∧ j1 = j ∧ p1 = p) ∨
       (∃ a b, e = Ev.builtin i p.type a b ret ∧ p.type ≠ CMD_EXTERNAL ∧ j1 = j ∧ p1 = p) ∨
       (∃ a b, e = Ev.fork i (env.fork_ret i) a b ∧ ret = 0 ∧ p.type = CMD_EXTERNAL ∧
          j1 = (if j.pgid = 0 then { j with pgid := env.fork_ret i } else j) ∧
          p1 = { p with pid := env.fork_ret i })) := by
  unfold launch_process at h
  split at h
  · simp only [Option.some.injEq, Prod.mk.injEq] at h
    obtain ⟨rfl, rfl, rfl, rfl⟩ := h
    exact ⟨[Ev.perror (p.infile.getD "")], _, rfl, rfl, Or.inl ⟨_, rfl, rfl, rfl, rfl⟩⟩
  · simp only at h
    split at h
    · simp only [Option.some.injEq, Prod.mk.injEq] at h
      obtain ⟨rfl, rfl, rfl, rfl⟩ := h
      obtain ⟨evs, ht, hfil⟩ := FdExt_emit (Ev.perror (p.outfile.getD "")) rfl
        (FdExt_open_redirect p.infile in_fd k)
        (FdExt_ite _ (p.infile.isSome ∧ (open_redirect p.infile in_fd k).1 ≠ in_fd) _
          (FdExt_close _ (open_redirect p.infile in_fd k).1))
      exact ⟨evs, _, ht, hfil, Or.inl ⟨_, rfl, rfl, rfl, rfl⟩⟩
    · split at h
      · rename_i b hb
        split at h
        · exact absurd h (by simp)
        · rename_i r hr
          simp only [Option.some.injEq, Prod.mk.injEq] at h
          obtain ⟨rfl, rfl, rfl, rfl⟩ := h
          obtain ⟨evs, ht, hfil⟩ := FdExt_emit (Ev.builtin i p.type
              (open_redirect p.infile in_fd k).1
              (open_redirect p.outfile out_fd (open_redirect p.infile in_fd k).2).1 r) rfl
            ((FdExt_open_redirect p.infile in_fd k).trans (FdExt_open_redirect p.outfile out_fd _))
            (FdExt_close_redirects p _ _ _ _ _)
          refine ⟨evs, _, ht, hfil, Or.inr (Or.inl ⟨_, _, rfl, ?_, rfl, rfl⟩)⟩
          intro hext
          have := (builtin_lookup_none p.type).2 hext
          rw [this] at hb
          exact absurd hb (by simp)
      · rename_i hb
        split at h
        · exact absurd h (by simp)
        · simp only [Option.some.injEq, Prod.mk.injEq] at h
          obtain ⟨rfl, rfl, rfl, rfl⟩ := h
          obtain ⟨evs, ht, hfil⟩ := FdExt_emit (Ev.fork i (env.fork_ret i)
              (open_redirect p.infile in_fd k).1
              (open_redirect p.outfile out_fd (open_redirect p.infile in_fd k).2).1) rfl
            ((FdExt_open_redirect p.infile in_fd k).trans (FdExt_open_redirect p.outfile out_fd _))
            (FdExt_close_redirects p _ _ _ _ _)
          exact ⟨evs, _, ht, hfil, Or.inr (Or.inr ⟨_, _, rfl, rfl,
            (builtin_lookup_none p.type).1 hb, rfl, rfl⟩)⟩

theorem mem_nonfd {evs : List Ev} {e x : Ev} (h : evs.filter (fun x => !x.isFd) = [e])
    (hx : x ∈ evs) : x.isFd = true ∨ x = e := by
  by_cases hf : x.isFd = true
  · exact Or.inl hf
  · right
    have hm : x ∈ evs.filter (fun x => !x.isFd) := List.mem_filter.2 ⟨hx, by simp [hf]⟩
    rw [h] at hm
    simpa using hm

theorem LoopEv_of_isFd (i : Nat) (e : Ev) (h : e.isFd = true) : LoopEv i e := by
  cases e <;> simp [Ev.isFd] at h <;> simp [LoopEv, Ev.afterLoop, Ev.stage]

theorem stage_of_isFd (e : Ev) (h : e.isFd = true) : e.stage = none := by
  cases e <;> simp [Ev.isFd] at h <;> rfl

theorem LoopEv_mono {i : Nat} {e : Ev} (h : LoopEv (i + 1) e) : LoopEv i e :=
  ⟨h.1, fun s hs => Nat.le_of_succ_le (h.2 s hs)⟩

theorem FdExt_pipe (k : Sys) : FdExt k (sys_pipe k).2.2 :=
  (FdExt_open k).trans (FdExt_open _)

/-- Events of the stage loop: only loop events of stages from `i` on, and a
built-in call with a negative outcome is the last launch and makes the loop
stop with -1. -/
theorem launch_stages_events (env : Env) :
    ∀ (ps : List process) (i : Nat) (j : job) (in_fd : Nat) (rm : Int) (k : Sys) (out : LoopOut),
      launch_stages env i ps j in_fd rm k = some out →
      ∃ evs, out.k.trace = k.trace ++ evs ∧ (∀ e ∈ evs, LoopEv i e) ∧
        (∀ s t a b r, Ev.builtin s t a b r ∈ evs → r < 0 →
          out.status = -1 ∧ ∀ e ∈ evs, ∀ s1, e.stage = some s1 → s1 ≤ s) := by
  intro ps
  induction ps with
  | nil =>
    intro i j in_fd rm k out h
    simp only [launch_stages, Option.some.injEq] at h
    subst h
    exact ⟨[], by simp, by simp, by simp⟩
  | cons p rest ih =>
    intro i j in_fd rm k out h
    rw [launch_stages] at h
    split at h
    · simp only [Option.some.injEq] at h
      subst h
      refine ⟨[Ev.perror "pipe"], rfl, ?_, ?_⟩
      · intro e he
        simp only [List.mem_singleton] at he
        subst he
        simp [LoopEv, Ev.afterLoop, Ev.stage]
      · intro s t a b r hm
        simp at hm
    · simp only at h
      split at h
      · exact absurd h (by simp)
      · rename_i ret j1 p1 k2 hlp
        obtain ⟨X1, hX1, hx1⟩ : FdExt k (if rest ≠ [] then (sys_pipe k).2.2 else k) :=
          FdExt_ite k _ _ (FdExt_pipe k)
        obtain ⟨evl, e, htl, hfil, hdisj⟩ := launch_process_events env i j p _ _ _ ret j1 p1 k2 hlp
        have he_loop : LoopEv i e := by
          rcases hdisj with ⟨w, rfl, -⟩ | ⟨a, b, rfl, -⟩ | ⟨a, b, rfl, -⟩ <;>
            simp [LoopEv, Ev.afterLoop, Ev.stage]
        have he_stage : ∀ s, e.stage = some s → s = i := by
          rcases hdisj with ⟨w, rfl, -⟩ | ⟨a, b, rfl, -⟩ | ⟨a, b, rfl, -⟩ <;>
            simp [Ev.stage]
        have he_ret : ∀ s t a b r, e = Ev.builtin s t a b r → r = ret := by
          rcases hdisj with ⟨w, rfl, -⟩ | ⟨a, b, rfl, -⟩ | ⟨a, b, rfl, -⟩ <;>
            intro s t a1 b1 r hr <;> simp at hr
          exact hr.2.2.2.2.symm
        have hevl : ∀ x ∈ evl, LoopEv i x := by
          intro x hx
          rcases mem_nonfd hfil hx with hf | rfl
          · exact LoopEv_of_isFd i x hf
          · exact he_loop
        have hevl_stage : ∀ x ∈ evl, ∀ s, x.stage = some s → s = i := by
          intro x hx s hs
          rcases mem_nonfd hfil hx with hf | rfl
          · rw [stage_of_isFd x hf] at hs
            exact absurd hs (by simp)
          · exact he_stage s hs
        split at h
        · rename_i hneg
          simp only [Option.some.injEq] at h
          subst h
          obtain ⟨X2, hX2, hx2⟩ : FdExt k2
              (if rest ≠ [] then sys_close (sys_close k2 (sys_pipe k).1) (sys_pipe k).2.1 else k2) :=
            FdExt_ite k2 _ _ ((FdExt_close _ _).trans (FdExt_close _ _))
          have hall : ∀ x ∈ X1 ++ evl ++ X2, LoopEv i x ∧ ∀ s, x.stage = some s → s = i := by
            intro x hx
            rcases List.mem_append.1 hx with hx | hx
            · rcases List.mem_append.1 hx with hx | hx
              · exact ⟨LoopEv_of_isFd i x (hx1 x hx), fun s hs => by
                  rw [stage_of_isFd x (hx1 x hx)] at hs; exact absurd hs (by simp)⟩
              · exact ⟨hevl x hx, hevl_stage x hx⟩
            · exact ⟨LoopEv_of_isFd i x (hx2 x hx), fun s hs => by
                rw [stage_of_isFd x (hx2 x hx)] at hs; exact absurd hs (by simp)⟩
          refine ⟨X1 ++ evl ++ X2, ?_, fun x hx => (hall x hx).1, ?_⟩
          · simp only [hX2, htl, hX1, List.append_assoc]
          · intro s t a b r hm _
            refine ⟨rfl, ?_⟩
            intro x hx s1 hs1
            have h1 := (hall x hx).2 s1 hs1
            have h2 := (hall _ hm).2 s rfl
            omega
        · rename_i hneg
          split at h
          · exact absurd h (by simp)
          · rename_i out1 hrec
            simp only [Option.some.injEq] at h
            subst h
            simp only
            obtain ⟨X3, hX3, hx3⟩ : FdExt k2
                (if rest ≠ [] ∧ in_fd ≠ STDIN_FILENO then
                  sys_close (if rest ≠ [] then sys_close k2 (sys_pipe k).2.1 else k2) in_fd
                 else (if rest ≠ [] then sys_close k2 (sys_pipe k).2.1 else k2)) :=
              (FdExt_ite k2 (rest ≠ []) _ (FdExt_close _ _)).trans (FdExt_ite _ _ _ (FdExt_close _ _))
            obtain ⟨ev1, ht1, hl1, hb1⟩ := ih _ _ _ _ _ _ hrec
            have hpre : ∀ x ∈ X1 ++ evl ++ X3, LoopEv i x ∧ (∀ s, x.stage = some s → s = i) ∧
                ∀ s t a b r, x = Ev.builtin s t a b r → r = ret := by
              intro x hx
              have hfd : ∀ y : Ev, y.isFd = true → LoopEv i y ∧ (∀ s, y.stage = some s → s = i) ∧
                  ∀ s t a b r, y = Ev.builtin s t a b r → r = ret := by
                intro y hy
                refine ⟨LoopEv_of_isFd i y hy, fun s hs => ?_, fun s t a b r hr => ?_⟩
                · rw [stage_of_isFd y hy] at hs; exact absurd hs (by simp)
                · subst hr; simp [Ev.isFd] at hy
              rcases List.mem_append.1 hx with hx | hx
              · rcases List.mem_append.1 hx with hx | hx
                · exact hfd x (hx1 x hx)
                · rcases mem_nonfd hfil hx with hf | rfl
                  · exact hfd x hf
                  · exact ⟨he_loop, he_stage, he_ret⟩
              · exact hfd x (hx3 x hx)
            refine ⟨X1 ++ evl ++ X3 ++ ev1, ?_, ?_, ?_⟩
            · simp only [ht1, hX3, htl, hX1, List.append_assoc]
            · intro x hx
              rcases List.mem_append.1 hx with hx | hx
              · exact (hpre x hx).1
              · exact LoopEv_mono (hl1 x hx)
            · intro s t a b r hm hr
              rcases List.mem_append.1 hm with hm | hm
              · have := (hpre _ hm).2.2 s t a b r rfl
                omega
              · obtain ⟨hst, hle⟩ := hb1 s t a b r hm hr
                refine ⟨hst, ?_⟩
                intro x hx s1 hs1
                rcases List.mem_append.1 hx with hx | hx
                · have h1 := (hpre x hx).2.1 s1 hs1
                  have h2 := (hl1 _ hm).2 s rfl
                  omega
                · exact hle x hx s1 hs1

theorem last_pid_cons_ne_nil (d e : Int) (p : process) (ps : List process) (h : ps ≠ []) :
    last_pid d (p :: ps) = last_pid e ps := by
  induction ps generalizing p with
  | nil => exact absurd rfl h
  | cons q rest ih =>
    cases rest with
    | nil => rfl
    | cons q2 rest2 =>
      show last_pid d (q :: q2 :: rest2) = last_pid e (q2 :: rest2)
      exact ih q (by simp)

theorem record_pids_ne_nil (env : Env) (i : Nat) (ps : List process) (h : ps ≠ []) :
    record_pids env i ps ≠ [] := by
  cases ps with
  | nil => exact absurd rfl h
  | cons p rest => simp [record_pids]

/-- Result of the stage loop: the job keeps its id, mode, text and chain, and
when the loop ran to its end the stages carry the recorded pids and
`rightmost_pid` is the pid recorded in the last stage. -/
theorem launch_stages_result (env : Env) :
    ∀ (ps : List process) (i : Nat) (j : job) (in_fd : Nat) (rm : Int) (k : Sys) (out : LoopOut),
      launch_stages env i ps j in_fd rm k = some out →
      out.j.id = j.id ∧ out.j.mode = j.mode ∧ out.j.full_cmd = j.full_cmd ∧
        out.j.first = j.first ∧
        (0 ≤ out.status → out.procs = record_pids env i ps ∧
          out.rightmost_pid = last_pid rm out.procs) := by
  intro ps
  induction ps with
  | nil =>
    intro i j in_fd rm k out h
    simp only [launch_stages, Option.some.injEq] at h
    subst h
    simp [record_pids, last_pid]
  | cons p rest ih =>
    intro i j in_fd rm k out h
    rw [launch_stages] at h
    split at h
    · simp only [Option.some.injEq] at h
      subst h
      simp
    · simp only at h
      split at h
      · exact absurd h (by simp)
      · rename_i ret j1 p1 k2 hlp
        obtain ⟨evl, e, -, -, hdisj⟩ := launch_process_events env i j p _ _ _ ret j1 p1 k2 hlp
        have hj : j1.id = j.id ∧ j1.mode = j.mode ∧ j1.full_cmd = j.full_cmd ∧ j1.first = j.first := by
          rcases hdisj with ⟨w, -, -, rfl, -⟩ | ⟨a, b, -, -, rfl, -⟩ | ⟨a, b, -, -, -, rfl, -⟩
          · simp
          · simp
          · split <;> simp
        have hp : ¬ ret < 0 →
            p1 = if p.type = CMD_EXTERNAL then { p with pid := env.fork_ret i } else p := by
          intro hret
          rcases hdisj with ⟨w, -, hr, -, rfl⟩ | ⟨a, b, -, hne, -, rfl⟩ | ⟨a, b, -, -, hext, -, rfl⟩
          · exact absurd (by rw [hr]; decide) hret
          · simp [hne]
          · simp [hext]
        split at h
        · simp only [Option.some.injEq] at h
          subst h
          exact ⟨hj.1, hj.2.1, hj.2.2.1, hj.2.2.2, fun hs => absurd hs (by simp)⟩
        · rename_i hret
          split at h
          · exact absurd h (by simp)
          · rename_i out1 hrec
            simp only [Option.some.injEq] at h
            subst h
            simp only
            obtain ⟨h1, h2, h3, h4, h5⟩ := ih _ _ _ _ _ _ hrec
            refine ⟨h1.trans hj.1, h2.trans hj.2.1, h3.trans hj.2.2.1, h4.trans hj.2.2.2, ?_⟩
            intro hst
            obtain ⟨hprocs, hrm⟩ := h5 hst
            refine ⟨by rw [hprocs, record_pids, hp hret], ?_⟩
            rw [hrm]
            by_cases hr : rest = []
            · subst hr
              simp only [launch_stages, Option.some.injEq] at hrec
              subst hrec
              simp [last_pid]
            · rw [last_pid_cons_ne_nil rm (if rest ≠ [] then if rest ≠ [] then rm else 0 else p1.pid)
                p1 out1.procs (by rw [hprocs]; exact record_pids_ne_nil env _ rest hr)]

/-! ## C1 -/

/-- C1: when `launch_job` returns 0 (every stage was launched) in a parent whose
standard input and output are open, the table of open descriptors is the one
of before the call; the call made no close of a descriptor that was not open,
no close of a descriptor that was open before the call (so none of standard
input or output), and closed every descriptor number as often as it opened
it. -/
theorem launch_job_descriptors_balanced (env : Env) (jp : Nat) (j : job) (sh : shell_info)
    (k : Sys) (j1 : job) (sh1 : shell_info) (k1 : Sys)
    (h0 : STDIN_FILENO ∈ k.fds) (h1 : STDOUT_FILENO ∈ k.fds)
    (h : launch_job env jp j sh k = some (0, j1, sh1, k1)) :
    k1.fds = k.fds ∧ ∃ evs, k1.trace = k.trace ++ evs ∧
      (∀ fd, Ev.badClose fd ∉ evs) ∧
      (∀ fd, Ev.closed fd ∈ evs → fd ∉ k.fds) ∧
      Ev.closed STDIN_FILENO ∉ evs ∧ Ev.closed STDOUT_FILENO ∉ evs ∧
      (∀ fd, evs.count (Ev.opened fd) = evs.count (Ev.closed fd)) := by
  suffices hs : k1.fds = k.fds ∧ ∃ evs, k1.trace = k.trace ++ evs ∧
      (∀ fd, Ev.badClose fd ∉ evs) ∧ (∀ fd, Ev.closed fd ∈ evs → fd ∉ k.fds) ∧
      (∀ fd, evs.count (Ev.opened fd) = evs.count (Ev.closed fd)) by
    obtain ⟨hf, evs, ht, hb, hc, hbal⟩ := hs
    exact ⟨hf, evs, ht, hb, hc, fun hm => hc _ hm h0, fun hm => hc _ hm h1, hbal⟩
  unfold launch_job at h
  simp only at h
  split at h
  · exact absurd h (by simp)
  · rename_i out hloop
    split at h
    · simp at h
    · rename_i hst
      obtain ⟨hinv, evs, ht, hb, hc, hbal⟩ :=
        launch_stages_fds env k.fds h0 h1 _ 0 _ STDIN_FILENO 0 k out
          ⟨fun hne => absurd rfl hne, by simp [STDIN_FILENO]⟩ hloop (not_lt.mp hst)
      have hk : (if out.in_fd ≠ STDIN_FILENO then sys_close out.k out.in_fd else out.k) =
          ⟨k.fds, k.trace ++ (evs ++ if out.in_fd ≠ 0 then [Ev.closed out.in_fd] else [])⟩ := by
        generalize out.k = ok at ht hinv
        obtain ⟨F', T'⟩ := ok
        simp only at ht hinv
        subst ht
        by_cases hi : out.in_fd = 0
        · simp [hi, STDIN_FILENO, hinv.2]
        · simp [hi, STDIN_FILENO, hinv.2, sys_close]
      rw [hk] at h
      have hclean : FdClean k.fds (evs ++ if out.in_fd ≠ 0 then [Ev.closed out.in_fd] else []) := by
        refine ⟨?_, ?_, ?_⟩
        · intro fd hm
          rcases List.mem_append.1 hm with hm | hm
          · exact hb fd hm
          · split at hm <;> simp at hm
        · intro fd hm
          rcases List.mem_append.1 hm with hm | hm
          · exact hc fd hm
          · split at hm
            · rename_i hi
              simp only [List.mem_singleton, Ev.closed.injEq] at hm
              subst hm
              exact hinv.1 hi
            · simp at hm
        · intro fd
          have e := hbal fd
          by_cases hi : out.in_fd = 0
          · simp [hi, carry, STDIN_FILENO] at e ⊢
            exact e
          · simp [hi, carry, STDIN_FILENO, List.count_cons] at e ⊢
            split_ifs at e ⊢ <;> omega
      generalize (evs ++ if out.in_fd ≠ 0 then [Ev.closed out.in_fd] else []) = E at h hclean
      split at h
      · simp only [Option.some.injEq, Prod.mk.injEq, true_and] at h
        obtain ⟨-, -, rfl⟩ := h
        obtain ⟨hwf, hwt⟩ := wait_all_spec out.procs ⟨k.fds, k.trace ++ E⟩
        refine ⟨hwf, E ++ (out.procs.filter (fun p => decide (p.type = CMD_EXTERNAL))).map
          (fun p => Ev.waitpid p.pid), by rw [hwt]; simp only [List.append_assoc], ?_⟩
        apply FdClean_append_other _ _ _ hclean
        intro e he
        simp only [List.mem_map] at he
        obtain ⟨_, _, rfl⟩ := he
        rfl
      · simp only [Option.some.injEq, Prod.mk.injEq, true_and] at h
        obtain ⟨-, -, rfl⟩ := h
        rw [notices_spec]
        refine ⟨rfl, _, List.append_assoc _ _ _, FdClean_append_other _ _ _ hclean ?_⟩
        intro e he
        rcases List.mem_append.1 he with he | he <;> split at he <;> simp at he <;> subst he <;> rfl

/-- Instance: the launch of `ls | wc < in > out` from the descriptors 0, 1, 2. -/
theorem launch_job_descriptors_balanced_witness :
    launch_job env_ok 7 job_ls_wc shell_init sys0 = some (0, job_ls_wc_done, shell_init, sys_ls_wc_done) ∧
    (sys_ls_wc_done.fds = sys0.fds ∧ ∃ evs, sys_ls_wc_done.trace = sys0.trace ++ evs ∧
      (∀ fd, Ev.badClose fd ∉ evs) ∧
      (∀ fd, Ev.closed fd ∈ evs → fd ∉ sys0.fds) ∧
      Ev.closed STDIN_FILENO ∉ evs ∧ Ev.closed STDOUT_FILENO ∉ evs ∧
      (∀ fd, evs.count (Ev.opened fd) = evs.count (Ev.closed fd))) :=
  ⟨by decide, launch_job_descriptors_balanced env_ok 7 job_ls_wc shell_init sys0 job_ls_wc_done
    shell_init sys_ls_wc_done (by decide) (by decide) (by decide)⟩

/-! ## C2 -/

/-- C2 (what the code does): when the input redirect of the second, last
stage of `ls | cat < missing` cannot be opened, `launch_job` returns -1 and
launches no further stage, but the read end 3 of the pipe that feeds this
stage is still open in the parent: the table is `[3, 0, 1, 2]`, not the
`[0, 1, 2]` of before the call. -/
theorem launch_job_input_failure_leaks_carried_pipe :
    launch_job env_no_input 7 job_ls_cat_missing shell_init sys0 =
      some (-1,
        ⟨0, 100, FG_EXEC, "ls | cat < missing",
          [⟨["ls"], none, none, 100, CMD_EXTERNAL⟩, ⟨["cat"], some "missing", none, 0, CMD_EXTERNAL⟩]⟩,
        shell_init,
        ⟨[3, 0, 1, 2],
          [Ev.opened 3, Ev.opened 4, Ev.fork 0 100 0 4, Ev.closed 4, Ev.perror "missing"]⟩) ∧
      3 ∉ sys0.fds := by
  decide

/-! ## C3 -/

/-- C3 as stated fails: for `mypid | wc`, where `mypid` without option reports
its usage error by -1, `launch_job` returns -1 and no event of stage 1 (`wc`)
exists; `mypid -x 1` gives the same negative outcome. -/
theorem launch_job_builtin_error_counterexample :
    launch_job env_ok 7 job_mypid_wc shell_init sys0 =
      some (-1, job_mypid_wc, shell_init, sys_mypid_wc_done) ∧
    (∀ e ∈ sys_mypid_wc_done.trace, e.stage ≠ some 1) ∧
    cmd_mypid env_ok ⟨["mypid", "-x", "1"], none, none, 0, CMD_MYPID⟩ = -1 := by
  decide

/-- C3, amended: when a built-in stage was called during `launch_job` and its
handler gave a negative outcome, `launch_job` returns -1 and that stage is the
last one launched: every launch event of the call belongs to a stage up to
this one. -/
theorem launch_job_builtin_error_aborts (env : Env) (jp : Nat) (j : job) (sh : shell_info)
    (k : Sys) (st : Int) (j1 : job) (sh1 : shell_info) (k1 : Sys) (evs : List Ev)
    (s : Nat) (t : CmdType) (a b : Nat) (r : Int)
    (h : launch_job env jp j sh k = some (st, j1, sh1, k1))
    (ht : k1.trace = k.trace ++ evs) (hm : Ev.builtin s t a b r ∈ evs) (hr : r < 0) :
    st = -1 ∧ ∀ e ∈ evs, ∀ s1, e.stage = some s1 → s1 ≤ s := by
  unfold launch_job at h
  simp only at h
  split at h
  · exact absurd h (by simp)
  · rename_i out hloop
    obtain ⟨ev0, ht0, -, hb0⟩ := launch_stages_events env _ _ _ _ _ _ _ hloop
    split at h
    · simp only [Option.some.injEq, Prod.mk.injEq] at h
      obtain ⟨rfl, -, -, rfl⟩ := h
      have : evs = ev0 := List.append_cancel_left (ht.symm.trans ht0)
      subst this
      exact ⟨rfl, (hb0 s t a b r hm hr).2⟩
    · rename_i hst
      exfalso
      obtain ⟨X, hX, hx⟩ : FdExt out.k
          (if out.in_fd ≠ STDIN_FILENO then sys_close out.k out.in_fd else out.k) :=
        FdExt_ite _ _ _ (FdExt_close _ _)
      have key : ∃ Y, evs = ev0 ++ X ++ Y ∧ ∀ e ∈ Y, e.afterLoop = true := by
        split at h
        · simp only [Option.some.injEq, Prod.mk.injEq] at h
          obtain ⟨-, -, -, rfl⟩ := h
          rw [(wait_all_spec _ _).2, hX, ht0, List.append_assoc, List.append_assoc] at ht
          refine ⟨_, by rw [List.append_assoc]; exact (List.append_cancel_left ht).symm, ?_⟩
          intro e he
          simp only [List.mem_map] at he
          obtain ⟨_, _, rfl⟩ := he
          rfl
        · simp only [Option.some.injEq, Prod.mk.injEq] at h
          obtain ⟨-, -, -, rfl⟩ := h
          rw [notices_spec] at ht
          simp only at ht
          rw [hX, ht0, List.append_assoc, List.append_assoc] at ht
          refine ⟨_, by rw [List.append_assoc]; exact (List.append_cancel_left ht).symm, ?_⟩
          intro e he
          rcases List.mem_append.1 he with he | he <;> split at he <;> simp at he <;> subst he <;> rfl
      obtain ⟨Y, rfl, hY⟩ := key
      rcases List.mem_append.1 hm with hm | hm
      · rcases List.mem_append.1 hm with hm | hm
        · have := (hb0 s t a b r hm hr).1
          rw [this] at hst
          exact hst (by decide)
        · have := hx _ hm
          simp [Ev.isFd] at this
      · have := hY _ hm
        simp [Ev.afterLoop] at this

/-- Instance: `mypid | wc`, where stage 0 is the built-in with outcome -1. -/
theorem launch_job_builtin_error_aborts_witness :
    launch_job env_ok 7 job_mypid_wc shell_init sys0 =
      some (-1, job_mypid_wc, shell_init, sys_mypid_wc_done) ∧
    ((-1 : Int) = -1 ∧ ∀ e ∈ sys_mypid_wc_done.trace, ∀ s1, e.stage = some s1 → s1 ≤ 0) :=
  ⟨by decide, launch_job_builtin_error_aborts env_ok 7 job_mypid_wc shell_init sys0 (-1)
    job_mypid_wc shell_init sys_mypid_wc_done sys_mypid_wc_done.trace 0 CMD_MYPID 0 4 (-1)
    (by decide) (by decide) (by decide) (by decide)⟩

/-! ## C4 -/

/-- The trace of `launch_job` splits into the events of the stage loop with
the final close, and the events after it; writes the job fields that the tail
of `launch_job` reads. -/
theorem launch_job_split (env : Env) (jp : Nat) (j : job) (sh : shell_info) (k : Sys)
    (st : Int) (j1 : job) (sh1 : shell_info) (k1 : Sys)
    (h : launch_job env jp j sh k = some (st, j1, sh1, k1)) :
    ∃ pre post, k1.trace = k.trace ++ pre ++ post ∧ (∀ e ∈ pre, e.afterLoop = false) ∧
      j1.mode = j.mode ∧ j1.id = (if j.mode = BG_EXEC then get_job_id sh else j.id) ∧
      (st = 0 ∨ st = -1) ∧ (st = -1 → post = []) ∧
      (st = 0 → j1.first = record_pids env 0 j.first ∧
        post = if j.mode = FG_EXEC then
            (j1.first.filter (fun p => decide (p.type = CMD_EXTERNAL))).map (fun p => Ev.waitpid p.pid)
          else
            (if last_pid 0 j1.first > 0 then [Ev.stdout (toString (last_pid 0 j1.first) ++ "\n")]
              else []) ++
            (if j1.id > 0 then
              [Ev.stdout ("[" ++ toString j1.id ++ "] " ++ toString j1.pgid ++ "\n")] else [])) := by
  unfold launch_job at h
  simp only at h
  split at h
  · exact absurd h (by simp)
  · rename_i out hloop
    obtain ⟨ev0, ht0, hl0, -⟩ := launch_stages_events env _ _ _ _ _ _ _ hloop
    obtain ⟨hid, hmode, -, -, hres⟩ := launch_stages_result env _ _ _ _ _ _ _ hloop
    have hmode1 : out.j.mode = j.mode := by rw [hmode]; split <;> rfl
    have hid1 : out.j.id = (if j.mode = BG_EXEC then get_job_id sh else j.id) := by
      rw [hid]; split <;> rfl
    have hfirst : (if j.mode = BG_EXEC then { j with id := get_job_id sh } else j).first = j.first := by
      split <;> rfl
    split at h
    · simp only [Option.some.injEq, Prod.mk.injEq] at h
      obtain ⟨rfl, rfl, -, rfl⟩ := h
      refine ⟨ev0, [], by simp [ht0], fun e he => (hl0 e he).1, hmode1, hid1, Or.inr rfl,
        fun _ => rfl, fun h0 => absurd h0 (by decide)⟩
    · rename_i hst
      obtain ⟨hprocs, hrm⟩ := hres (not_lt.mp hst)
      rw [hfirst] at hprocs
      obtain ⟨X, hX, hx⟩ : FdExt out.k
          (if out.in_fd ≠ STDIN_FILENO then sys_close out.k out.in_fd else out.k) :=
        FdExt_ite _ _ _ (FdExt_close _ _)
      have hpre : ∀ e ∈ ev0 ++ X, e.afterLoop = false := by
        intro e he
        rcases List.mem_append.1 he with he | he
        · exact (hl0 e he).1
        · exact (LoopEv_of_isFd 0 e (hx e he)).1
      split at h
      · rename_i hfg
        simp only [Option.some.injEq, Prod.mk.injEq] at h
        obtain ⟨rfl, rfl, -, rfl⟩ := h
        have hjfg : j.mode = FG_EXEC := by rw [← hmode1]; exact hfg
        refine ⟨ev0 ++ X, (out.procs.filter (fun p => decide (p.type = CMD_EXTERNAL))).map
            (fun p => Ev.waitpid p.pid), ?_, hpre, hmode1, hid1, Or.inl rfl,
          fun h0 => absurd h0 (by decide), fun _ => ⟨hprocs, ?_⟩⟩
        · rw [(wait_all_spec _ _).2, hX, ht0]
          simp only [List.append_assoc]
        · simp [hjfg]
      · rename_i hfg
        simp only [Option.some.injEq, Prod.mk.injEq] at h
        obtain ⟨rfl, rfl, -, rfl⟩ := h
        have hjfg : ¬ j.mode = FG_EXEC := by rw [← hmode1]; exact hfg
        refine ⟨ev0 ++ X, (if out.rightmost_pid > 0 then
              [Ev.stdout (toString out.rightmost_pid ++ "\n")] else []) ++
            (if out.j.id > 0 then
              [Ev.stdout ("[" ++ toString out.j.id ++ "] " ++ toString out.j.pgid ++ "\n")] else []),
          ?_, hpre, hmode1, hid1, Or.inl rfl, fun h0 => absurd h0 (by decide),
          fun _ => ⟨hprocs, ?_⟩⟩
        · rw [notices_spec]
          simp only
          rw [hX, ht0]
          simp only [List.append_assoc]
        · simp only [hjfg, if_false, hrm]

/-- C4: the `waitpid` calls of `launch_job` are the last events of the call;
for a foreground job that returns 0 they are one call per external stage, on
the pid recorded for the stage (the value `fork` returned for it), in chain
order, and none for a built-in stage; for every other call, in particular for
every background job, there is no `waitpid` at all. -/
theorem launch_job_waits (env : Env) (jp : Nat) (j : job) (sh : shell_info) (k : Sys)
    (st : Int) (j1 : job) (sh1 : shell_info) (k1 : Sys)
    (h : launch_job env jp j sh k = some (st, j1, sh1, k1)) :
    (st = 0 → j1.first = record_pids env 0 j.first) ∧
    ∃ pre waits, k1.trace = k.trace ++ pre ++ waits ∧ (∀ pid, Ev.waitpid pid ∉ pre) ∧
      waits = if j.mode = FG_EXEC ∧ st = 0 then
          (j1.first.filter (fun p => decide (p.type = CMD_EXTERNAL))).map (fun p => Ev.waitpid p.pid)
        else [] := by
  obtain ⟨pre, post, ht, hpre, -, -, hst, hneg, hzero⟩ := launch_job_split env jp j sh k st j1 sh1 k1 h
  have hnw : ∀ pid, Ev.waitpid pid ∉ pre := by
    intro pid hm
    have := hpre _ hm
    simp [Ev.afterLoop] at this
  refine ⟨fun h0 => (hzero h0).1, ?_⟩
  rcases hst with h0 | h1
  · obtain ⟨-, hpost⟩ := hzero h0
    by_cases hfg : j.mode = FG_EXEC
    · refine ⟨pre, post, ht, hnw, ?_⟩
      rw [hpost]
      simp [hfg, h0]
    · refine ⟨pre ++ post, [], by simp [ht], ?_, by simp [hfg]⟩
      intro pid hm
      rcases List.mem_append.1 hm with hm | hm
      · exact hnw pid hm
      · rw [hpost] at hm
        simp only [hfg, if_false] at hm
        rcases List.mem_append.1 hm with hm | hm <;> split at hm <;> simp at hm
  · refine ⟨pre, [], by simp [ht, hneg h1], hnw, ?_⟩
    simp [h1]

/-- Instance: the foreground launch of `ls | wc < in > out` waits for 100, then 101. -/
theorem launch_job_waits_witness :
    launch_job env_ok 7 job_ls_wc shell_init sys0 = some (0, job_ls_wc_done, shell_init, sys_ls_wc_done) ∧
    (((0 : Int) = 0 → job_ls_wc_done.first = record_pids env_ok 0 job_ls_wc.first) ∧
    ∃ pre waits, sys_ls_wc_done.trace = sys0.trace ++ pre ++ waits ∧ (∀ pid, Ev.waitpid pid ∉ pre) ∧
      waits = if job_ls_wc.mode = FG_EXEC ∧ (0 : Int) = 0 then
          (job_ls_wc_done.first.filter (fun p => decide (p.type = CMD_EXTERNAL))).map
            (fun p => Ev.waitpid p.pid)
        else []) :=
  ⟨by decide, launch_job_waits env_ok 7 job_ls_wc shell_init sys0 0 job_ls_wc_done shell_init
    sys_ls_wc_done (by decide)⟩

/-! ## C5 -/

/-- C5 (what the code does): when `fork` returns -1 for the first stage of
`ls | wc`, `launch_process` still returns 0: the stage records pid -1, the job
adopts -1 as its process-group id, stage 1 is launched all the same, and
`launch_job` returns 0 after `waitpid(-1)`. -/
theorem launch_job_fork_failure_not_detected :
    launch_job env_fork_fails 7 job_ls_pipe_wc shell_init sys0 =
      some (0,
        ⟨0, -1, FG_EXEC, "ls | wc",
          [⟨["ls"], none, none, -1, CMD_EXTERNAL⟩, ⟨["wc"], none, none, 101, CMD_EXTERNAL⟩]⟩,
        shell_init,
        ⟨[0, 1, 2],
          [Ev.opened 3, Ev.opened 4, Ev.fork 0 (-1) 0 4, Ev.closed 4, Ev.fork 1 101 3 1,
            Ev.closed 3, Ev.waitpid (-1), Ev.waitpid 101]⟩) := by
  decide

/-! ## C6 -/

/-- C6 as stated fails: the background job `cd &`, launched with slot 1 free,
returns 0, is registered in slot 1, and `launch_job` writes one line only,
the slot notice; no representative pid line comes first. -/
theorem launch_job_notice_counterexample :
    launch_job env_ok 7 job_cd_bg shell_init sys0 =
      some (0, ⟨1, 0, BG_EXEC, "cd &", [⟨["cd"], none, none, 0, CMD_CD⟩]⟩,
        ⟨(shell_init.jobs.set 1 (some 7))⟩,
        ⟨[0, 1, 2], [Ev.builtin 0 CMD_CD 0 1 1, Ev.stdout "[1] 0\n"]⟩) ∧
    stdout_lines [Ev.builtin 0 CMD_CD 0 1 1, Ev.stdout "[1] 0\n"] = ["[1] 0\n"] := by
  decide

theorem stdout_lines_append (a b : List Ev) :
    stdout_lines (a ++ b) = stdout_lines a ++ stdout_lines b := by
  simp [stdout_lines, List.filterMap_append]

theorem stdout_lines_of_loop (evs : List Ev) (h : ∀ e ∈ evs, e.afterLoop = false) :
    stdout_lines evs = [] := by
  unfold stdout_lines
  rw [List.filterMap_eq_nil_iff]
  intro e he
  have := h e he
  cases e <;> simp [Ev.afterLoop] at this <;> rfl

theorem last_pid_record_pids (env : Env) (d : Int) (p : process) :
    ∀ (ps : List process) (i : Nat),
      last_pid d (record_pids env i (ps ++ [p])) =
        if p.type = CMD_EXTERNAL then env.fork_ret (i + ps.length) else p.pid := by
  intro ps
  induction ps with
  | nil =>
    intro i
    by_cases hp : p.type = CMD_EXTERNAL <;> simp [record_pids, last_pid, hp]
  | cons q rest ih =>
    intro i
    have hne : record_pids env (i + 1) (rest ++ [p]) ≠ [] :=
      record_pids_ne_nil env _ _ (by simp)
    rw [List.cons_append, record_pids, last_pid_cons_ne_nil d d _ _ hne, ih (i + 1)]
    simp only [List.length_cons]
    rw [show i + 1 + rest.length = i + (rest.length + 1) by omega]

/-- C6, amended: for a background job that `launch_job` launches with return
value 0 and for which a slot was found, the lines written to standard output
by `launch_job` are: the pid recorded in the last stage on a line of its own,
only if that pid is positive, then `[<slot>] <pgid>`.  So a job whose last
stage is external and was forked with a positive pid gets the two lines, and a
job whose last stage is a built-in (no pid recorded, the field is 0) gets the
slot line only. -/
theorem launch_job_background_notice (env : Env) (jp : Nat) (j : job) (sh : shell_info)
    (k : Sys) (j1 : job) (sh1 : shell_info) (k1 : Sys) (evs : List Ev)
    (hbg : j.mode = BG_EXEC) (hslot : get_job_id sh > 0)
    (h : launch_job env jp j sh k = some (0, j1, sh1, k1))
    (ht : k1.trace = k.trace ++ evs) :
    j1.id = get_job_id sh ∧
    stdout_lines evs =
      (if last_pid 0 j1.first > 0 then [toString (last_pid 0 j1.first) ++ "\n"] else []) ++
        ["[" ++ toString j1.id ++ "] " ++ toString j1.pgid ++ "\n"] ∧
    ∀ ps p, j.first = ps ++ [p] →
      (p.type = CMD_EXTERNAL → env.fork_ret ps.length > 0 →
        stdout_lines evs = [toString (env.fork_ret ps.length) ++ "\n",
          "[" ++ toString j1.id ++ "] " ++ toString j1.pgid ++ "\n"]) ∧
      (p.type ≠ CMD_EXTERNAL → p.pid = 0 →
        stdout_lines evs = ["[" ++ toString j1.id ++ "] " ++ toString j1.pgid ++ "\n"]) := by
  obtain ⟨pre, post, ht1, hpre, -, hid, -, -, hzero⟩ := launch_job_split env jp j sh k 0 j1 sh1 k1 h
  obtain ⟨hfirst, hpost⟩ := hzero rfl
  rw [if_pos hbg] at hid
  have hev : evs = pre ++ post := by
    rw [ht, List.append_assoc] at ht1
    exact List.append_cancel_left ht1
  have hidpos : j1.id > 0 := by rw [hid]; exact hslot
  have hlines : stdout_lines evs =
      (if last_pid 0 j1.first > 0 then [toString (last_pid 0 j1.first) ++ "\n"] else []) ++
        ["[" ++ toString j1.id ++ "] " ++ toString j1.pgid ++ "\n"] := by
    rw [hev, stdout_lines_append, stdout_lines_of_loop pre hpre, hpost]
    simp only [hbg, reduceCtorEq, if_false, hidpos, if_true, List.nil_append]
    split <;> simp [stdout_lines]
  refine ⟨hid, hlines, ?_⟩
  intro ps p hps
  have hl : last_pid 0 j1.first = if p.type = CMD_EXTERNAL then env.fork_ret (0 + ps.length) else p.pid := by
    rw [hfirst, hps]
    exact last_pid_record_pids env 0 p ps 0
  rw [Nat.zero_add] at hl
  refine ⟨fun hext hpos => ?_, fun hb hp0 => ?_⟩
  · rw [hlines, hl, if_pos hext, if_pos hpos]
    rfl
  · rw [hlines, hl, if_neg hb, hp0]
    simp

/-- Instance: `ls | wc < in > out &` prints `101` and `[1] 100`. -/
theorem launch_job_background_notice_witness :
    launch_job env_ok 7 job_ls_wc_bg shell_init sys0 =
      some (0, job_ls_wc_bg_done, ⟨(shell_init.jobs.set 1 (some 7))⟩, ⟨[0, 1, 2], evs_ls_wc_bg⟩) ∧
    stdout_lines evs_ls_wc_bg =
      (if last_pid 0 job_ls_wc_bg_done.first > 0
        then [toString (last_pid 0 job_ls_wc_bg_done.first) ++ "\n"] else []) ++
        ["[" ++ toString job_ls_wc_bg_done.id ++ "] " ++ toString job_ls_wc_bg_done.pgid ++ "\n"] :=
  ⟨by decide, (launch_job_background_notice env_ok 7 job_ls_wc_bg shell_init sys0
    job_ls_wc_bg_done ⟨(shell_init.jobs.set 1 (some 7))⟩ ⟨[0, 1, 2], evs_ls_wc_bg⟩ evs_ls_wc_bg
    (by decide) (by decide) (by decide) (by decide)).2.1⟩

/-! ## C7 -/

/-- The launch of a stage does not look at the slot id of the job. -/
theorem launch_process_id (env : Env) (i : Nat) (j : job) (x : Int) (p : process)
    (in_fd out_fd : Nat) (k : Sys) :
    launch_process env i { j with id := x } p in_fd out_fd k =
      (launch_process env i j p in_fd out_fd k).map
        (fun r => (r.1, { r.2.1 with id := x }, r.2.2.1, r.2.2.2)) := by
  unfold launch_process
  split
  · rfl
  · simp only
    split
    · rfl
    · split
      · split
        · rfl
        · rfl
      · split
        · rfl
        · simp only [Option.map_some', Option.some.injEq, Prod.mk.injEq, true_and, and_true]
          split <;> rfl

/-- The stage loop does not look at the slot id of the job. -/
theorem launch_stages_id (env : Env) (x : Int) :
    ∀ (ps : List process) (i : Nat) (j : job) (in_fd : Nat) (rm : Int) (k : Sys),
      launch_stages env i ps { j with id := x } in_fd rm k =
        (launch_stages env i ps j in_fd rm k).map
          (fun out => { out with j := { out.j with id := x } }) := by
  intro ps
  induction ps with
  | nil => intro i j in_fd rm k; rfl
  | cons p rest ih =>
    intro i j in_fd rm k
    rw [launch_stages, launch_stages]
    split
    · rfl
    · simp only [launch_process_id]
      cases hlp : launch_process env i j p in_fd
          (if rest ≠ [] then (sys_pipe k).2.1 else STDOUT_FILENO)
          (if rest ≠ [] then (sys_pipe k).2.2 else k) with
      | none => rfl
      | some r =>
        obtain ⟨ret, j1, p1, k2⟩ := r
        simp only [Option.map_some']
        split
        · rfl
        · rw [ih]
          cases launch_stages env (i + 1) rest j1 (if rest ≠ [] then (sys_pipe k).1 else in_fd)
              (if rest ≠ [] then if rest ≠ [] then rm else 0 else p1.pid)
              (if rest ≠ [] ∧ in_fd ≠ STDIN_FILENO then
                sys_close (if rest ≠ [] then sys_close k2 (sys_pipe k).2.1 else k2) in_fd
               else if rest ≠ [] then sys_close k2 (sys_pipe k).2.1 else k2) with
          | none => rfl
          | some out => rfl

theorem get_job_id_from_spec (jobs : List (Option Nat)) :
    ∀ (n i : Nat),
      (∃ m : Nat, get_job_id_from jobs i n = (m : Int) ∧ i ≤ m ∧ m < i + n ∧
          jobs.getD m none = none ∧ ∀ k, i ≤ k → k < m → jobs.getD k none ≠ none) ∨
      (get_job_id_from jobs i n = -1 ∧ ∀ k, i ≤ k → k < i + n → jobs.getD k none ≠ none) := by
  intro n
  induction n with
  | zero =>
    intro i
    exact Or.inr ⟨rfl, fun k h1 h2 => absurd h2 (by omega)⟩
  | succ n ih =>
    intro i
    rw [get_job_id_from]
    by_cases h : jobs.getD i none = none
    · rw [if_pos h]
      exact Or.inl ⟨i, rfl, le_refl _, by omega, h, fun k h1 h2 => absurd h2 (by omega)⟩
    · rw [if_neg h]
      rcases ih (i + 1) with ⟨m, hm, h1, h2, h3, h4⟩ | ⟨hm, h4⟩
      · refine Or.inl ⟨m, hm, by omega, by omega, h3, ?_⟩
        intro k hk1 hk2
        by_cases hki : k = i
        · rw [hki]; exact h
        · exact h4 k (by omega) hk2
      · refine Or.inr ⟨hm, ?_⟩
        intro k hk1 hk2
        by_cases hki : k = i
        · rw [hki]; exact h
        · exact h4 k (by omega) (by omega)

theorem table_of_getD_lt (pre : List Nat) (m k : Nat) (h1 : 1 ≤ k) (h2 : k ≤ pre.length) :
    (table_of pre m).getD k none ≠ none := by
  obtain ⟨k, rfl⟩ : ∃ k0, k = k0 + 1 := ⟨k - 1, by omega⟩
  have hk : k < pre.length := by omega
  simp [table_of, List.getD_eq_getElem?_getD, List.getElem?_append_left, hk]

theorem table_of_getD_gt (pre : List Nat) (m k : Nat) (h : pre.length < k) :
    (table_of pre m).getD k none = none := by
  obtain ⟨k, rfl⟩ : ∃ k0, k = k0 + 1 := ⟨k - 1, by omega⟩
  have hk : pre.length ≤ k := by omega
  simp only [table_of, List.getD_eq_getElem?_getD, List.getElem?_cons_succ]
  rw [List.getElem?_append_right (by simpa using hk)]
  rw [List.getElem?_replicate]
  split <;> rfl

theorem get_job_id_table_of (pre : List Nat) (m : Nat) (h : pre.length + m = MAX_JOBS) :
    get_job_id ⟨table_of pre m⟩ = if m = 0 then -1 else ((pre.length + 1 : Nat) : Int) := by
  unfold get_job_id
  rcases get_job_id_from_spec (table_of pre m) MAX_JOBS 1 with ⟨r, hr, h1, h2, h3, h4⟩ | ⟨hr, h4⟩
  · rw [hr]
    have hgt : pre.length < r := by
      by_contra hc
      exact table_of_getD_lt pre m r h1 (by omega) h3
    have hle : r ≤ pre.length + 1 := by
      by_contra hc
      exact h4 (pre.length + 1) (by omega) (by omega) (table_of_getD_gt pre m _ (by omega))
    have hm : m ≠ 0 := by omega
    rw [if_neg hm]
    have : r = pre.length + 1 := by omega
    rw [this]
  · rw [hr]
    by_cases hm : m = 0
    · rw [if_pos hm]
    · exact absurd (table_of_getD_gt pre m (pre.length + 1) (by omega))
        (h4 (pre.length + 1) (by omega) (by omega))

theorem table_of_set (pre : List Nat) (m jp : Nat) :
    (table_of pre (m + 1)).set (pre.length + 1) (some jp) = table_of (pre ++ [jp]) m := by
  simp only [table_of, List.set_cons_succ, List.map_append, List.map_cons, List.map_nil,
    List.append_assoc, List.singleton_append, List.cons.injEq, true_and]
  have : pre.length = (pre.map some).length := by simp
  rw [this, List.set_append_right _ _ (le_refl _)]
  simp [List.replicate_succ]

/-- What `launch_job` does to the job table and to the slot id of the job. -/
theorem launch_job_table (env : Env) (jp : Nat) (j : job) (sh : shell_info) (k : Sys)
    (st : Int) (j1 : job) (sh1 : shell_info) (k1 : Sys)
    (h : launch_job env jp j sh k = some (st, j1, sh1, k1)) :
    sh1 = (if j.mode = BG_EXEC ∧ get_job_id sh > 0 then
        ⟨sh.jobs.set (get_job_id sh).toNat (some jp)⟩ else sh) ∧
      j1.id = (if j.mode = BG_EXEC then get_job_id sh else j.id) := by
  refine ⟨?_, (launch_job_split env jp j sh k st j1 sh1 k1 h).choose_spec.choose_spec.2.2.2.1⟩
  unfold launch_job at h
  simp only at h
  by_cases hbg : j.mode = BG_EXEC
  · simp only [hbg, if_true, true_and] at h ⊢
    split at h
    · exact absurd h (by simp)
    · split at h
      · simp only [Option.some.injEq, Prod.mk.injEq] at h
        exact h.2.2.1.symm
      · split at h <;>
        · simp only [Option.some.injEq, Prod.mk.injEq] at h
          exact h.2.2.1.symm
  · simp only [hbg, if_false, false_and] at h ⊢
    split at h
    · exact absurd h (by simp)
    · split at h
      · simp only [Option.some.injEq, Prod.mk.injEq] at h
        exact h.2.2.1.symm
      · split at h <;>
        · simp only [Option.some.injEq, Prod.mk.injEq] at h
          exact h.2.2.1.symm

/-- Launching a batch of background jobs against a table whose first slots are
taken: the jobs fill the free slots in order, each with the slot number as its
id; once the table is full the jobs get id -1 and the table stays as it is. -/
theorem run_jobs_fills (batch : List (Env × Nat × job)) :
    ∀ (pre : List Nat) (m : Nat) (sh : shell_info) (k : Sys)
      (rs : List (Int × job)) (sh1 : shell_info) (k1 : Sys),
      sh.jobs = table_of pre m → pre.length + m = MAX_JOBS →
      (∀ x ∈ batch, x.2.2.mode = BG_EXEC) → run_jobs batch sh k = some (rs, sh1, k1) →
      sh1.jobs = table_of (pre ++ (batch.take m).map (fun x => x.2.1)) (m - batch.length) ∧
        rs.map (fun r => r.2.id) =
          (List.range batch.length).map
            (fun n => if n < m then ((pre.length + 1 + n : Nat) : Int) else -1) := by
  induction batch with
  | nil =>
    intro pre m sh k rs sh1 k1 hsh _ _ h
    simp only [run_jobs, Option.some.injEq, Prod.mk.injEq] at h
    obtain ⟨rfl, rfl, rfl⟩ := h
    simp [hsh]
  | cons x rest ih =>
    intro pre m sh k rs sh1 k1 hsh hlen hbg h
    obtain ⟨env, jp, j⟩ := x
    rw [run_jobs] at h
    split at h
    · exact absurd h (by simp)
    · rename_i st j1 sh2 k2 hl
      split at h
      · exact absurd h (by simp)
      · rename_i rs2 sh3 k3 hr
        simp only [Option.some.injEq, Prod.mk.injEq] at h
        obtain ⟨rfl, rfl, rfl⟩ := h
        have hj : j.mode = BG_EXEC := hbg (env, jp, j) (List.mem_cons_self _ _)
        obtain ⟨hsh2, hj1⟩ := launch_job_table env jp j sh k st j1 sh2 k2 hl
        have hgid := get_job_id_table_of pre m hlen
        rw [← hsh] at hgid
        cases m with
        | zero =>
          rw [if_pos rfl] at hgid
          rw [if_pos hj, hgid] at hj1
          rw [if_neg (by rw [hgid]; simp)] at hsh2
          subst hsh2
          obtain ⟨ht, hids⟩ := ih pre 0 sh2 k2 rs2 sh3 k3 hsh hlen
            (fun x hx => hbg x (List.mem_cons_of_mem _ hx)) hr
          refine ⟨by simpa using ht, ?_⟩
          simp only [List.map_cons, hj1, hids, List.length_cons, List.range_succ_eq_map,
            List.map_map, List.cons.injEq]
          refine ⟨by simp, ?_⟩
          apply List.map_congr_left
          intro n _
          simp
        | succ m =>
          rw [if_neg (by omega)] at hgid
          rw [if_pos hj, hgid] at hj1
          rw [if_pos ⟨hj, by rw [hgid]; omega⟩, hgid, hsh] at hsh2
          have hsh2' : sh2.jobs = table_of (pre ++ [jp]) m := by
            rw [hsh2]
            exact table_of_set pre m jp
          obtain ⟨ht, hids⟩ := ih (pre ++ [jp]) m sh2 k2 rs2 sh3 k3 hsh2'
            (by simp only [List.length_append, List.length_singleton]; omega)
            (fun x hx => hbg x (List.mem_cons_of_mem _ hx)) hr
          refine ⟨?_, ?_⟩
          · rw [ht]
            simp only [List.length_cons, List.take_succ_cons, List.map_cons, List.append_assoc,
              List.singleton_append, Nat.add_sub_add_right]
          · simp only [List.map_cons, hj1, hids, List.length_cons, List.range_succ_eq_map,
              List.map_map, List.length_append, List.length_singleton, Nat.add_zero,
              List.cons.injEq]
            refine ⟨by simp, ?_⟩
            apply List.map_congr_left
            intro n _
            simp only [Function.comp, List.length_nil, Nat.succ_eq_add_one, Nat.add_lt_add_iff_right]
            split
            · congr 1
              omega
            · rfl

/-- With every slot taken, a background job is launched like the same job
against the empty table: same return value, chain, group id and descriptor
table; it gets id -1, the job table is not written, and of the events only the
slot notice is missing. -/
theorem launch_job_full_table (env : Env) (jp : Nat) (j : job) (sh : shell_info) (k : Sys)
    (hbg : j.mode = BG_EXEC)
    (hfull : ∀ i, 1 ≤ i → i ≤ MAX_JOBS → sh.jobs.getD i none ≠ none) :
    (launch_job env jp j shell_init k = none → launch_job env jp j sh k = none) ∧
    ∀ st j1 sh1 k1, launch_job env jp j shell_init k = some (st, j1, sh1, k1) →
      ∃ k2, launch_job env jp j sh k = some (st, { j1 with id := -1 }, sh, k2) ∧
        k2.fds = k1.fds ∧
        k1.trace = k2.trace ++
          (if st = 0 then [Ev.stdout ("[1] " ++ toString j1.pgid ++ "\n")] else []) := by
  have hfullid : get_job_id sh = -1 := by
    unfold get_job_id
    rcases get_job_id_from_spec sh.jobs MAX_JOBS 1 with ⟨r, hr, h1, h2, h3, h4⟩ | ⟨hr, h4⟩
    · exact absurd h3 (hfull r h1 (by omega))
    · exact hr
  have hinit : get_job_id shell_init = 1 := by decide
  unfold launch_job
  simp only [if_pos hbg, hfullid, hinit]
  rw [launch_stages_id env (-1), launch_stages_id env 1]
  simp only [hbg, true_and]
  cases hl : launch_stages env 0 j.first j STDIN_FILENO 0 k with
  | none => simp
  | some out =>
    simp only [Option.map_some']
    have hmode : out.j.mode = BG_EXEC := by
      rw [(launch_stages_result env _ _ _ _ _ _ _ hl).2.1]; exact hbg
    have hs1 : ("[" ++ toString (1 : Int) ++ "] ") = "[1] " := by decide
    have hn : ¬ ((-1 : Int) > 0) := by decide
    have hp : (1 : Int) > 0 := by decide
    simp only [hmode, reduceCtorEq, if_false, hs1, hn, hp, if_true]
    refine ⟨?_, ?_⟩
    · intro h
      split at h <;> simp at h
    · intro st j1 sh1 k1 h
      by_cases hst : out.status < 0
      · simp only [hst, if_true, Option.some.injEq, Prod.mk.injEq] at h ⊢
        obtain ⟨rfl, rfl, -, rfl⟩ := h
        exact ⟨out.k, by simp, rfl, by simp⟩
      · simp only [hst, if_false, Option.some.injEq, Prod.mk.injEq] at h ⊢
        obtain ⟨rfl, rfl, -, rfl⟩ := h
        exact ⟨_, ⟨rfl, rfl, trivial, rfl⟩, by simp [Sys.emit], by simp [Sys.emit]⟩

/-- C7: `get_job_id` returns the smallest index in 1..MAX_JOBS whose slot is
empty, and -1 when slots 1..MAX_JOBS are all taken.  Hence, when background
jobs are launched one after the other from the table of `shell_init`, the
n-th of them (n = 1..MAX_JOBS) has its address stored in slot n and its id set
to n, every later one gets id -1 and leaves the table as it is; and a
background job that finds every slot taken is launched exactly like the same
job against the empty table (same return value, chain, group id, descriptor
table), only the job table is not written and the slot notice is not
printed. -/
theorem job_slot_allocation :
    (∀ sh : shell_info,
      (∃ m : Nat, get_job_id sh = (m : Int) ∧ 1 ≤ m ∧ m ≤ MAX_JOBS ∧
          sh.jobs.getD m none = none ∧ ∀ i, 1 ≤ i → i < m → sh.jobs.getD i none ≠ none) ∨
      (get_job_id sh = -1 ∧ ∀ i, 1 ≤ i → i ≤ MAX_JOBS → sh.jobs.getD i none ≠ none)) ∧
    (∀ (batch : List (Env × Nat × job)) (k : Sys) (rs : List (Int × job)) (sh1 : shell_info)
        (k1 : Sys),
      (∀ x ∈ batch, x.2.2.mode = BG_EXEC) → run_jobs batch shell_init k = some (rs, sh1, k1) →
      sh1.jobs = none :: (((batch.take MAX_JOBS).map (fun x => some x.2.1)) ++
          List.replicate (MAX_JOBS - batch.length) none) ∧
        rs.map (fun r => r.2.id) =
          (List.range batch.length).map (fun n => if n < MAX_JOBS then (n : Int) + 1 else -1)) ∧
    (∀ (env : Env) (jp : Nat) (j : job) (sh : shell_info) (k : Sys),
      j.mode = BG_EXEC → (∀ i, 1 ≤ i → i ≤ MAX_JOBS → sh.jobs.getD i none ≠ none) →
      (launch_job env jp j shell_init k = none → launch_job env jp j sh k = none) ∧
      ∀ st j1 sh1 k1, launch_job env jp j shell_init k = some (st, j1, sh1, k1) →
        ∃ k2, launch_job env jp j sh k = some (st, { j1 with id := -1 }, sh, k2) ∧
          k2.fds = k1.fds ∧
          k1.trace = k2.trace ++
            (if st = 0 then [Ev.stdout ("[1] " ++ toString j1.pgid ++ "\n")] else [])) := by
  refine ⟨?_, ?_, ?_⟩
  · intro sh
    rcases get_job_id_from_spec sh.jobs MAX_JOBS 1 with ⟨m, hm, h1, h2, h3, h4⟩ | ⟨hm, h4⟩
    · exact Or.inl ⟨m, hm, h1, by omega, h3, h4⟩
    · exact Or.inr ⟨hm, fun i hi1 hi2 => h4 i hi1 (by omega)⟩
  · intro batch k rs sh1 k1 hbg h
    obtain ⟨ht, hids⟩ := run_jobs_fills batch [] MAX_JOBS shell_init k rs sh1 k1 rfl rfl hbg h
    refine ⟨?_, ?_⟩
    · rw [ht]
      simp [table_of]
      rfl
    · rw [hids]
      apply List.map_congr_left
      intro n _
      split
      · simp only [List.length_nil]
        push_cast
        omega
      · rfl
  · intro env jp j sh k hbg hfull
    exact launch_job_full_table env jp j sh k hbg hfull

/-- Instance: `cd &` then `ls | wc < in > out &` take the slots 1 and 2. -/
theorem job_slot_allocation_witness :
    run_jobs batch_two shell_init sys0 =
      some (batch_two_results, ⟨table_of [7, 8] 18⟩, batch_two_sys) ∧
    ((⟨table_of [7, 8] 18⟩ : shell_info).jobs =
        none :: (((batch_two.take MAX_JOBS).map (fun x => some x.2.1)) ++
          List.replicate (MAX_JOBS - batch_two.length) none) ∧
      batch_two_results.map (fun r => r.2.id) =
        (List.range batch_two.length).map (fun n => if n < MAX_JOBS then (n : Int) + 1 else -1)) :=
  ⟨by decide, job_slot_allocation.2.1 batch_two sys0 batch_two_results ⟨table_of [7, 8] 18⟩
    batch_two_sys (by decide) (by decide)⟩

/-! ## C8 -/

/-- C8 (what the code does): against the history `["ls -l", "echo hi"]` the
line `replay 2 extra` becomes `echo hiextra`: the blank that ends the index
token is consumed by the tokenizer and is not part of the appended text; the
line `replay 2` becomes `echo hi`. -/
theorem process_replay_drops_separator :
    process_replay hist_two "replay 2 extra" = (some "echo hiextra", hist_two) ∧
    process_replay hist_two "replay 2" = (some "echo hi", hist_two) := by
  decide

/-! ## C9 -/

/-- C9 as stated fails: against the history `["ls -l", "echo hi"]` the line
`replay 2abc` is not returned as it is, it becomes `echo hi`. -/
theorem process_replay_counterexample :
    process_replay hist_two "replay 2abc" = (some "echo hi", hist_two) ∧
    (some "echo hi" : Option String) ≠ some "replay 2abc" := by
  decide

theorem dropWhile_head_false {α : Type} (p : α → Bool) :
    ∀ (l : List α) (c : α) (t : List α), l.dropWhile p = c :: t → p c = false := by
  intro l
  induction l with
  | nil => intro c t h; simp at h
  | cons a l ih =>
    intro c t h
    rw [List.dropWhile_cons] at h
    split at h
    · exact ih c t h
    · rename_i hp
      simp only [List.cons.injEq] at h
      rw [← h.1]
      simpa using hp

/-- On a line that starts with `replay `, the first `strtok_r` call leaves the
saved position just behind these seven characters. -/
theorem strtok_r_replay (l : List Char) (h : l.take 7 = "replay ".data) :
    (strtok_r l [Char.ofNat 32]).2 = l.drop 7 := by
  have hl : l = "replay ".data ++ l.drop 7 := by rw [← h, List.take_append_drop]
  generalize l.drop 7 = t at hl
  subst hl
  simp [strtok_r]

/-- The second token found by `strtok_r` is the index token of the
specification, when there is one. -/
theorem strtok_r_token (s : List Char) :
    (strtok_r s [Char.ofNat 32]).1 =
      if (s.dropWhile (fun c => decide (c = Char.ofNat 32))).takeWhile
          (fun c => decide (c ≠ Char.ofNat 32)) = [] then none
      else some ((s.dropWhile (fun c => decide (c = Char.ofNat 32))).takeWhile
          (fun c => decide (c ≠ Char.ofNat 32))) := by
  unfold strtok_r
  simp only [List.mem_singleton]
  cases hs : s.dropWhile (fun c => decide (c = Char.ofNat 32)) with
  | nil => simp
  | cons c t =>
    have hc := dropWhile_head_false _ s c t hs
    simp only [decide_eq_false_iff_not] at hc
    simp only [reduceCtorEq, if_false]
    have hne : List.takeWhile (fun c => decide (c ≠ Char.ofNat 32)) (c :: t) ≠ [] := by
      simp [List.takeWhile_cons, hc]
    rw [if_neg hne]
    split <;> rfl

/-- C9, amended: `process_replay` returns the line as it is, and the history
as it is, for every line that does not start with `replay `, or has no index
token, or whose index token is read by `atoi` (leading white space, a sign,
the leading decimal digits; what follows them is ignored) as a number outside
1..history_count.  In every case the history is the one of before the call. -/
theorem process_replay_unchanged (h : History) (line : String)
    (hno : ¬ ("replay ".data <+: line.data) ∨ index_token line = [] ∨
      atoi (index_token line) < 1 ∨ atoi (index_token line) > h.history_count) :
    process_replay h line = (some line, h) ∧
      ∀ line1 : String, (process_replay h line1).2 = h := by
  refine ⟨?_, ?_⟩
  · unfold process_replay
    by_cases hp : line.data.take 7 = "replay ".data
    · rw [if_neg (not_not.mpr hp)]
      have hpre : "replay ".data <+: line.data := by
        rw [List.prefix_iff_eq_take]
        exact hp.symm
      have htok := strtok_r_token (strtok_r line.data [Char.ofNat 32]).2
      rw [strtok_r_replay line.data hp] at htok ⊢
      change (strtok_r (List.drop 7 line.data) [Char.ofNat 32]).1 =
        if index_token line = [] then none else some (index_token line) at htok
      cases hst : strtok_r (List.drop 7 line.data) [Char.ofNat 32] with
      | mk a b =>
        rw [hst] at htok
        simp only at htok
        by_cases he : index_token line = []
        · rw [if_pos he] at htok
          subst htok
          rfl
        · rw [if_neg he] at htok
          subst htok
          simp only
          rcases hno with hno | hno | hno
          · exact absurd hpre hno
          · exact absurd hno he
          · rw [if_pos hno]
    · rw [if_pos hp]
  · intro line1
    unfold process_replay
    split
    · rfl
    · split
      · rfl
      · simp only
        split
        · rfl
        · split <;> rfl

/-- Instance: `replay 99` against a history of two entries. -/
theorem process_replay_unchanged_witness :
    atoi (index_token "replay 99") > hist_two.history_count ∧
    (process_replay hist_two "replay 99" = (some "replay 99", hist_two) ∧
      ∀ line1 : String, (process_replay hist_two line1).2 = hist_two) :=
  ⟨by decide, process_replay_unchanged hist_two "replay 99" (Or.inr (Or.inr (Or.inr (by decide))))⟩

/-- The other lines named by the claim are returned as they are. -/
theorem process_replay_unchanged_examples :
    process_replay hist_two "replay 0" = (some "replay 0", hist_two) ∧
    process_replay hist_two "replay abc" = (some "replay abc", hist_two) ∧
    process_replay hist_two "replay " = (some "replay ", hist_two) ∧
    process_replay hist_two "replay" = (some "replay", hist_two) ∧
    process_replay hist_two "ls -l" = (some "ls -l", hist_two) := by
  decide

/-! ## C10 -/

theorem echo_loop_eq (argv : List String) :
    ∀ (n i : Nat), i + n = argv.length → echo_loop argv i n = join_blank (argv.drop i) := by
  intro n
  induction n with
  | zero =>
    intro i hi
    rw [List.drop_of_length_le (by omega)]
    rfl
  | succ n ih =>
    intro i hi
    have hlt : i < argv.length := by omega
    rw [echo_loop, ih (i + 1) (by omega), List.drop_eq_getElem_cons hlt]
    have hget : argv.getD i "" = argv[i] := by
      simp [List.getD_eq_getElem?_getD, List.getElem?_eq_getElem hlt]
    rw [hget]
    cases hd : argv.drop (i + 1) with
    | nil =>
      have : ¬ (i + 1 < argv.length) := by
        intro hc
        have := List.drop_eq_nil_iff.1 hd
        omega
      simp [this, join_blank]
    | cons b rest =>
      have : i + 1 < argv.length := by
        by_contra hc
        rw [List.drop_of_length_le (by omega)] at hd
        exact absurd hd (by simp)
      simp [this, join_blank]

/-- C10: for every argument vector, `cmd_echo` writes the arguments after the
command name (after the `-n`, when the first argument is `-n`) joined by
single blanks, followed by a newline unless `-n` was given, and returns 1; so
`echo -n a b` writes `a b` and `echo a b` writes `a b` and a newline. -/
theorem cmd_echo_output :
    (∀ proc : process,
      cmd_echo proc =
        (if proc.argv[1]? = some "-n" then join_blank (proc.argv.drop 2)
          else join_blank (proc.argv.drop 1) ++ "\n", 1)) ∧
    cmd_echo ⟨["echo", "-n", "a", "b"], none, none, 0, CMD_ECHO⟩ = ("a b", 1) ∧
    cmd_echo ⟨["echo", "a", "b"], none, none, 0, CMD_ECHO⟩ = ("a b\n", 1) := by
  refine ⟨?_, by decide, by decide⟩
  intro proc
  unfold cmd_echo
  by_cases h : proc.argv[1]? = some "-n"
  · have hlen : proc.argv.length > 1 := by
      by_contra hc
      rw [List.getElem?_eq_none (by omega)] at h
      exact absurd h (by simp)
    have hget : proc.argv.getD 1 "" = "-n" := by
      simp [List.getD_eq_getElem?_getD, h]
    rw [if_pos ⟨hlen, hget⟩, if_pos h, echo_loop_eq proc.argv _ 2 (by omega)]
  · have hc : ¬ (proc.argv.length > 1 ∧ proc.argv.getD 1 "" = "-n") := by
      rintro ⟨hlen, hget⟩
      apply h
      rw [List.getElem?_eq_getElem hlen]
      simp [List.getD_eq_getElem?_getD, List.getElem?_eq_getElem hlen] at hget
      rw [hget]
    rw [if_neg hc, if_neg h]
    by_cases hl : 1 ≤ proc.argv.length
    · rw [echo_loop_eq proc.argv _ 1 (by omega)]
    · have : proc.argv = [] := by
        cases hp : proc.argv with
        | nil => rfl
        | cons a t => rw [hp] at hl; simp at hl
      rw [this]
      rfl

/-! ## C11 -/

theorem split_on_dropWhile (d : Char) :
    ∀ s : List Char,
      (split_on d (s.dropWhile (fun c => decide (c = d)))).filter (fun f => decide (f ≠ [])) =
        (split_on d s).filter (fun f => decide (f ≠ [])) := by
  intro s
  induction s with
  | nil => rfl
  | cons c cs ih =>
    by_cases hc : c = d
    · simp only [List.dropWhile_cons, hc, decide_True, if_true, split_on]
      rw [ih]
      simp
    · simp [List.dropWhile_cons, hc]

theorem split_on_cut (d : Char) :
    ∀ s : List Char,
      split_on d s = s.takeWhile (fun c => decide (c ≠ d)) ::
        (match s.dropWhile (fun c => decide (c ≠ d)) with
          | [] => []
          | _ :: save => split_on d save) := by
  intro s
  induction s with
  | nil => rfl
  | cons c cs ih =>
    by_cases hc : c = d
    · simp [split_on, hc, List.takeWhile_cons, List.dropWhile_cons]
    · rw [split_on, if_neg hc, ih]
      simp [List.takeWhile_cons, List.dropWhile_cons, hc]

theorem tokens_fuel_nil (delim : List Char) (n : Nat) : tokens_fuel delim n [] = [] := by
  cases n with
  | zero => rfl
  | succ n => simp [tokens_fuel, strtok_r]

/-- The `strtok_r` loop with one delimiter finds the non-empty fields, given
one call more than the string has characters. -/
theorem tokens_fuel_eq (d : Char) :
    ∀ (n : Nat) (s : List Char), s.length < n →
      tokens_fuel [d] n s = (split_on d s).filter (fun f => decide (f ≠ [])) := by
  intro n
  induction n with
  | zero => intro s hs; exact absurd hs (by omega)
  | succ n ih =>
    intro s hs
    rw [← split_on_dropWhile d s, tokens_fuel]
    unfold strtok_r
    simp only [List.mem_singleton]
    have hlen : (s.dropWhile (fun c => decide (c = d))).length ≤ s.length :=
      (List.dropWhile_sublist _).length_le
    cases hs1 : s.dropWhile (fun c => decide (c = d)) with
    | nil => simp [split_on]
    | cons c t =>
      rw [hs1] at hlen
      have hc := dropWhile_head_false _ s c t hs1
      simp only [decide_eq_false_iff_not] at hc
      simp only [reduceCtorEq, if_false]
      rw [split_on_cut d (c :: t)]
      have htw : List.takeWhile (fun c => decide (c ≠ d)) (c :: t) ≠ [] := by
        simp [List.takeWhile_cons, hc]
      have hlen2 : ((c :: t).dropWhile (fun c => decide (c ≠ d))).length ≤ (c :: t).length :=
        (List.dropWhile_sublist _).length_le
      cases hdw : (c :: t).dropWhile (fun c => decide (c ≠ d)) with
      | nil =>
        simp only [List.filter_cons, htw, decide_True, if_true, ne_eq, not_false_eq_true,
          List.filter_nil, tokens_fuel_nil]
      | cons x save =>
        rw [hdw] at hlen2
        simp only [List.length_cons] at hlen hlen2
        simp only [List.filter_cons, htw, decide_True, if_true, ne_eq, not_false_eq_true]
        simpa [hdw] using ih save (by omega)

theorem strtok_r_save_length (delim s tok save : List Char)
    (h : strtok_r s delim = (some tok, save)) : save.length < s.length := by
  unfold strtok_r at h
  simp only at h
  have h1 : (s.dropWhile (fun c => decide (c ∈ delim))).length ≤ s.length :=
    (List.dropWhile_sublist _).length_le
  split at h
  · simp at h
  · rename_i hne
    have h2 : ((s.dropWhile (fun c => decide (c ∈ delim))).dropWhile
        (fun c => decide (c ∉ delim))).length ≤
        (s.dropWhile (fun c => decide (c ∈ delim))).length :=
      (List.dropWhile_sublist _).length_le
    have h3 : 0 < (s.dropWhile (fun c => decide (c ∈ delim))).length :=
      List.length_pos.2 hne
    split at h
    · rename_i hd
      simp only [Prod.mk.injEq] at h
      rw [← h.2]
      simp only [List.length_nil]
      omega
    · rename_i x sv hd
      simp only [Prod.mk.injEq] at h
      rw [hd] at h2
      rw [← h.2]
      simp only [List.length_cons] at h2
      omega

/-- More calls than the string has characters find no further token. -/
theorem tokens_fuel_stable (delim : List Char) :
    ∀ (n : Nat) (s : List Char), s.length < n →
      tokens_fuel delim n s = tokens delim s := by
  intro n
  induction n using Nat.strong_induction_on with
  | _ n ih =>
    intro s hs
    unfold tokens
    cases n with
    | zero => exact absurd hs (by omega)
    | succ n =>
      rw [tokens_fuel, tokens_fuel]
      cases hst : strtok_r s delim with
      | mk a save =>
        cases a with
        | none => rfl
        | some tok =>
          have hl := strtok_r_save_length delim s tok save hst
          simp only
          rw [ih n (by omega) save (by omega), ih s.length (by omega) save hl]

theorem tokens_pipe (s : List Char) : tokens [Char.ofNat 124] s = pipeline_stages s :=
  tokens_fuel_eq (Char.ofNat 124) (s.length + 1) s (by omega)

theorem split_on_filter_nil (d : Char) :
    ∀ s : List Char,
      (split_on d s).filter (fun f => decide (f ≠ [])) = [] ↔ ∀ c ∈ s, c = d := by
  intro s
  induction s with
  | nil => simp [split_on]
  | cons c cs ih =>
    by_cases hc : c = d
    · simp only [split_on, hc, if_true, List.mem_cons, forall_eq_or_imp, true_and]
      rw [← ih]
      simp
    · rw [split_on, if_neg hc]
      constructor
      · intro hf
        exfalso
        split at hf <;> simp at hf
      · intro hall
        exact absurd (hall c (List.mem_cons_self _ _)) hc

theorem parse_segments_length :
    ∀ (segs : List (List Char)) (ps : List process),
      parse_segments segs = some ps → ps.length = segs.length := by
  intro segs
  induction segs with
  | nil =>
    intro ps h
    simp only [parse_segments, Option.some.injEq] at h
    subst h
    rfl
  | cons seg rest ih =>
    intro ps h
    rw [parse_segments] at h
    split at h
    · exact absurd h (by simp)
    · split at h
      · exact absurd h (by simp)
      · rename_i ps1 hps
        simp only [Option.some.injEq] at h
        subst h
        simp [ih ps1 hps]

theorem parse_segments_some :
    ∀ (segs : List (List Char)),
      (∀ seg ∈ segs,
        parse_segment (seg.dropWhile (fun c => decide (c = Char.ofNat 32))) ≠ none) →
      ∃ ps, parse_segments segs = some ps := by
  intro segs
  induction segs with
  | nil => intro _; exact ⟨[], rfl⟩
  | cons seg rest ih =>
    intro hall
    obtain ⟨ps, hps⟩ := ih (fun s hs => hall s (List.mem_cons_of_mem _ hs))
    have hseg := hall seg (List.mem_cons_self _ _)
    cases hp : parse_segment (seg.dropWhile (fun c => decide (c = Char.ofNat 32))) with
    | none => exact absurd hp hseg
    | some p => exact ⟨p :: ps, by rw [parse_segments, hp, hps]⟩

/-- The history is the same after `process_replay`. -/
theorem process_replay_history (h : History) (line : String) :
    (process_replay h line).2 = h := by
  unfold process_replay
  split
  · rfl
  · split
    · rfl
    · simp only
      split
      · rfl
      · split <;> rfl

/-- C11 as stated fails: for the lines `&` and `|` handed to `parse_line`
the returned job has an empty process chain, its head process is absent; the
line `ls | | wc` gives a chain of three stages. -/
theorem parse_line_empty_chain_counterexample :
    (parse_line hist_two "&").map (fun r => (r.1.mode, r.1.first)) = some (BG_EXEC, []) ∧
    (parse_line hist_two "|").map (fun r => (r.1.mode, r.1.first)) = some (FG_EXEC, []) ∧
    (parse_line hist_two "ls | | wc").map (fun r => r.1.first) =
      some [⟨["ls"], none, none, 0, CMD_EXTERNAL⟩, ⟨[], none, none, 0, CMD_EXTERNAL⟩,
        ⟨["wc"], none, none, 0, CMD_EXTERNAL⟩] := by
  decide

/-- C11, amended: the job that `parse_line` returns owns a process chain whose
length is the number of pipeline stages of the line, that is the number of
non-empty pieces between the `|` characters of the line after replay
substitution and after removal of a trailing `&` with the blanks before it;
the chain is empty, the head process absent, exactly when nothing but `|`
characters is left.  `parse_line` does return such a job when the bytes of the
substituted line and its terminator fit the `LINE_LEN` bytes of a history row,
`history_count` is not negative and every stage can be parsed. -/
theorem parse_line_chain_length (h : History) (line pl : String)
    (hpl : (process_replay h line).1 = some pl) :
    (∀ j h1, parse_line h line = some (j, h1) →
      j.first.length = (pipeline_stages (strip_background pl.data).2).length ∧
      (j.first = [] ↔ ∀ c ∈ (strip_background pl.data).2, c = Char.ofNat 124)) ∧
    (0 ≤ h.history_count → pl.utf8ByteSize < LINE_LEN →
      (∀ seg ∈ pipeline_stages (strip_background pl.data).2,
        parse_segment (seg.dropWhile (fun c => decide (c = Char.ofNat 32))) ≠ none) →
      ∃ j h1, parse_line h line = some (j, h1) ∧
        j.first.length = (pipeline_stages (strip_background pl.data).2).length ∧
        (j.first = [] ↔ ∀ c ∈ (strip_background pl.data).2, c = Char.ofNat 124)) := by
  have hfirst : ∀ j h1, parse_line h line = some (j, h1) →
      j.first.length = (pipeline_stages (strip_background pl.data).2).length ∧
      (j.first = [] ↔ ∀ c ∈ (strip_background pl.data).2, c = Char.ofNat 124) := by
    intro j h1 hp
    unfold parse_line at hp
    rw [hpl] at hp
    simp only at hp
    split at hp
    · exact absurd hp (by simp)
    · split at hp
      · exact absurd hp (by simp)
      · rename_i ps hps
        simp only [Option.some.injEq, Prod.mk.injEq] at hp
        obtain ⟨rfl, -⟩ := hp
        have hlen := parse_segments_length _ ps hps
        rw [tokens_pipe] at hlen
        refine ⟨hlen, ?_⟩
        simp only
        rw [← split_on_filter_nil (Char.ofNat 124), ← List.length_eq_zero, hlen,
          List.length_eq_zero]
        rfl
  refine ⟨hfirst, ?_⟩
  intro h0 hlen hseg
  have hex : ∃ j h1, parse_line h line = some (j, h1) := by
    unfold parse_line
    rw [hpl, process_replay_history]
    simp only
    have hadd : ∃ h1, add_history h pl = some h1 := by
      unfold add_history
      split
      · exact ⟨_, rfl⟩
      · rw [if_neg (by simp only [not_or, not_lt, not_le]; exact ⟨h0, hlen⟩)]
        split <;> exact ⟨_, rfl⟩
    obtain ⟨h1, hh1⟩ := hadd
    rw [hh1]
    simp only
    obtain ⟨ps, hps⟩ := parse_segments_some (tokens [Char.ofNat 124] (strip_background pl.data).2)
      (by rw [tokens_pipe]; exact hseg)
    rw [hps]
    exact ⟨_, _, rfl⟩
  obtain ⟨j, h1, hp⟩ := hex
  exact ⟨j, h1, hp, hfirst j h1 hp⟩

/-- Instance: `ls | | wc` is parsed, into three stages, the middle one
without arguments. -/
theorem parse_line_chain_length_witness :
    ((process_replay hist_two "ls | | wc").1 = some "ls | | wc" ∧
      parse_line hist_two "ls | | wc" = some (job_ls_empty_wc, hist_three) ∧
      0 ≤ hist_two.history_count ∧ ("ls | | wc" : String).utf8ByteSize < LINE_LEN) ∧
    (job_ls_empty_wc.first.length =
        (pipeline_stages (strip_background "ls | | wc".data).2).length ∧
      (job_ls_empty_wc.first = [] ↔
        ∀ c ∈ (strip_background "ls | | wc".data).2, c = Char.ofNat 124)) ∧
    (∃ j h1, parse_line hist_two "ls | | wc" = some (j, h1) ∧
      j.first.length = (pipeline_stages (strip_background "ls | | wc".data).2).length ∧
      (j.first = [] ↔ ∀ c ∈ (strip_background "ls | | wc".data).2, c = Char.ofNat 124)) ∧
    (pipeline_stages (strip_background "ls | | wc".data).2).length = 3 :=
  ⟨by decide,
    (parse_line_chain_length hist_two "ls | | wc" "ls | | wc" (by decide)).1
      job_ls_empty_wc hist_three (by decide),
    (parse_line_chain_length hist_two "ls | | wc" "ls | | wc" (by decide)).2
      (by decide) (by decide) (by decide),
    by decide⟩

/-! ## C12 -/

/-- A row of the array after `add_history` wrote all `MAX_HISTORY` rows. -/
theorem getD_map_range (f : Nat → String) (n i : Nat) (hi : i < n) :
    ((List.range n).map f).getD i "" = f i := by
  simp [List.getD_eq_getElem?_getD, List.getElem?_map, List.getElem?_range hi]

/-- C12: for a history with 0 <= history_count <= MAX_HISTORY and a non-empty
line shorter than LINE_LEN bytes, `add_history` leaves as entries the last
MAX_HISTORY of the old entries followed by the line, in the same order, and
history_count = min(old count + 1, MAX_HISTORY); for the empty line it leaves
the history and the count as they are. -/
theorem add_history_bounded_buffer (h : History) (line : String)
    (h0 : 0 ≤ h.history_count) (hmax : h.history_count ≤ MAX_HISTORY) :
    add_history h "" = some h ∧
    (line ≠ "" → line.utf8ByteSize < LINE_LEN →
      ∃ h1, add_history h line = some h1 ∧
        entries h1 = last_n MAX_HISTORY (entries h ++ [line]) ∧
        h1.history_count = min (h.history_count + 1) MAX_HISTORY) := by
  refine ⟨rfl, ?_⟩
  intro hne hlen
  obtain ⟨rows, count⟩ := h
  simp only at h0 hmax
  obtain ⟨c, rfl⟩ : ∃ c : Nat, count = (c : Int) := ⟨count.toNat, (Int.toNat_of_nonneg h0).symm⟩
  have hc : c ≤ 16 := by
    have : ((c : Int)) ≤ 16 := hmax
    omega
  have hdata : line.data ≠ [] := by
    intro hd
    apply hne
    cases line
    simp only at hd
    subst hd
    rfl
  unfold add_history
  rw [if_neg hdata, if_neg (by simp only [not_or, not_lt, not_le]; exact ⟨h0, hlen⟩)]
  by_cases hlt : c < 16
  · have hlt' : ((c : Int)) < MAX_HISTORY := by simp only [MAX_HISTORY]; omega
    rw [if_pos hlt']
    refine ⟨_, rfl, ?_, ?_⟩
    · have hcast : (c : Int) + 1 = ((c + 1 : Nat) : Int) := by push_cast; rfl
      have e1 : (List.range (c + 1)).map (fun i => ((List.range MAX_HISTORY).map
            (fun i => if i = c then line else rows.getD i "")).getD i "") =
          (List.range (c + 1)).map (fun i => if i = c then line else rows.getD i "") := by
        apply List.map_congr_left
        intro i hi
        have hi' : i < c + 1 := List.mem_range.1 hi
        exact getD_map_range _ MAX_HISTORY i (by simp only [MAX_HISTORY]; omega)
      have e2 : (List.range c).map (fun i => if i = c then line else rows.getD i "") =
          (List.range c).map (fun i => rows.getD i "") := by
        apply List.map_congr_left
        intro i hi
        have hi' : i < c := List.mem_range.1 hi
        rw [if_neg (by omega)]
      simp only [entries, Int.toNat_ofNat, hcast, last_n, List.length_append, List.length_map,
        List.length_range, List.length_singleton]
      rw [e1, List.range_succ, List.map_append, e2,
        show c + 1 - MAX_HISTORY = 0 by simp only [MAX_HISTORY]; omega, List.drop_zero]
      simp
    · simp only [MAX_HISTORY]
      omega
  · have hc16 : c = 16 := by omega
    subst hc16
    rw [if_neg (by simp [MAX_HISTORY])]
    refine ⟨_, rfl, ?_, ?_⟩
    · simp only [entries, Int.toNat_ofNat, last_n, List.length_append, List.length_map,
        List.length_range, List.length_singleton, MAX_HISTORY]
      simp [List.range_succ, List.getD_eq_getElem?_getD]
    · simp [MAX_HISTORY]

/-- Instance: a seventeenth line pushes the oldest entry out of a full
history. -/
theorem add_history_bounded_buffer_witness :
    (0 ≤ hist_full.history_count ∧ hist_full.history_count ≤ MAX_HISTORY ∧
      ("pwd" : String) ≠ "" ∧ ("pwd" : String).utf8ByteSize < LINE_LEN) ∧
    ∃ h1, add_history hist_full "pwd" = some h1 ∧
      entries h1 = last_n MAX_HISTORY (entries hist_full ++ ["pwd"]) ∧
      h1.history_count = min (hist_full.history_count + 1) MAX_HISTORY :=
  ⟨by decide, (add_history_bounded_buffer hist_full "pwd" (by decide) (by decide)).2
    (by decide) (by decide)⟩

/-- What the full history holds after the seventeenth line. -/
theorem add_history_evicts_oldest :
    (add_history hist_full "pwd").map entries =
      some ["c2", "c3", "c4", "c5", "c6", "c7", "c8", "c9", "c10", "c11", "c12", "c13", "c14",
        "c15", "c16", "pwd"] := by
  decide

theorem utf8ByteSize_go_replicate (c : Char) :
    ∀ n : Nat, String.utf8ByteSize.go (List.replicate n c) = n * c.utf8Size := by
  intro n
  induction n with
  | zero => simp [String.utf8ByteSize.go]
  | succ n ih =>
    rw [List.replicate_succ, String.utf8ByteSize.go, ih]
    ring

/-- The bound of a history row is counted in bytes: a line of 600 characters
that takes 1200 bytes is not stored, neither at the end of a full history nor
in a free row, and `parse_line` has no defined result for it; `strcpy` would
write past the row. -/
theorem add_history_counts_bytes :
    line_two_byte_chars.length = 600 ∧ line_two_byte_chars.utf8ByteSize = 1200 ∧
    add_history hist_full line_two_byte_chars = none ∧
    add_history hist_two line_two_byte_chars = none ∧
    parse_line hist_two line_two_byte_chars = none := by
  have hsize : line_two_byte_chars.utf8ByteSize = 1200 := by
    show String.utf8ByteSize.go (List.replicate 600 (Char.ofNat 233)) = 1200
    rw [utf8ByteSize_go_replicate]
    decide
  have hdata : line_two_byte_chars.data ≠ [] := by
    show List.replicate 600 (Char.ofNat 233) ≠ []
    intro hnil
    have hl := congrArg List.length hnil
    rw [List.length_replicate] at hl
    exact absurd hl (by decide)
  have hadd : ∀ h : History, add_history h line_two_byte_chars = none := by
    intro h
    unfold add_history
    rw [if_neg hdata, if_pos (Or.inr (by rw [hsize]; decide))]
  have htake : line_two_byte_chars.data.take 7 ≠ "replay ".data := by
    show List.take 7 (List.replicate 600 (Char.ofNat 233)) ≠ "replay ".data
    rw [List.take_replicate]
    decide
  have hpr : process_replay hist_two line_two_byte_chars = (some line_two_byte_chars, hist_two) := by
    unfold process_replay
    rw [if_pos htake]
  refine ⟨List.length_replicate 600 _, hsize, hadd _, hadd _, ?_⟩
  unfold parse_line
  rw [hpr]
  simp only
  rw [hadd]

end SimpleShell
